import Mathlib

/-!
Verification of the tabular cleaning / validation / enrichment pipeline in
`src/etl.py`.

A pandas `DataFrame` is modelled as a `Table`: a header (list of column
names) together with a list of rows, each row a list of `Value`s aligned
with the header.  Cell values are modelled by the inductive type `Value`:
`na` is `NaN`/`NaT`/`None`, `num q` a numeric value (Python ints and floats
are both modelled as rationals, which is exact for every value the pipeline
produces), `str s` a Python string, and `date d` a `Timestamp` counted in
days since the Unix epoch (1970-01-01 is `date 0`).

External library behaviour that the script relies on is embedded as
follows: `drop_duplicates` keeps the first occurrence of every row;
`Series.median`/`Series.quantile` sort the non-missing numeric values and
use the standard estimators (mean of the middle pair, respectively linear
interpolation); `astype(int)` truncates toward zero (exact within the
int64 range, which is where the truncation statements are asserted);
`.str.strip().str.title()` acts on ASCII text exactly like Python's
`str.strip`/`str.title` and yields missing for non-string cells;
`pd.to_datetime(..., errors="coerce")` keeps datetimes and is modelled as
coercing every non-datetime value to missing (which string literals parse
successfully is irrelevant to every claim, all of which concern
already-cleaned or missing temporal values).

Not everything pandas does is total.  `df[col].median()` raises
`TypeError` on an object column holding strings, and `Series.between`
raises comparing string or datetime cells with numeric bounds; the
functions below are nevertheless total, so they are faithful only on
well-typed columns, and every theorem about a numeric column carries a
numeric-or-missing typing hypothesis (`IsNumOrNa`) confining it to that
domain.  The crash of the pipeline on a string-bearing numeric column is
modelled separately and explicitly by `clean_data?`.  The string grammar
of `pd.to_numeric(..., errors="coerce")` is modelled as plain decimal
literals, narrower than pandas' (no exponents, no padding whitespace);
no surviving statement evaluates string parsing, because an unparseable
string in a numeric column makes the real pipeline raise at the median
step before the coercion is reached.
-/

/- The arithmetic of `Rat` is hidden behind `irreducible` for elaboration
speed; concrete tables here are small, and making it semireducible again
lets `decide` evaluate the pipeline on them. -/
attribute [local semireducible] Rat.add Rat.mul Rat.inv Rat.sub

inductive Value where
  | na : Value
  | num : ℚ → Value
  | str : String → Value
  | date : Int → Value
deriving DecidableEq

structure Table where
  header : List String
  rows : List (List Value)
deriving DecidableEq

/-- A table is well-formed when it is rectangular: every row has exactly one
cell per header column.  Every `DataFrame` satisfies this. -/
def Table.WF (t : Table) : Prop :=
  ∀ r ∈ t.rows, r.length = t.header.length

instance (t : Table) : Decidable t.WF :=
  inferInstanceAs (Decidable (∀ r ∈ t.rows, r.length = t.header.length))

/-- Index of a column name in a header (first occurrence), `none` if absent. -/
def idxOf? (c : String) : List String → Option Nat
  | [] => none
  | x :: xs => if x = c then some 0 else (idxOf? c xs).map (· + 1)

/-- Replace the element at an index by the image under `f`; out-of-range
indices leave the list unchanged. -/
def modifyIdx {α : Type} : Nat → (α → α) → List α → List α
  | _, _, [] => []
  | 0, f, v :: vs => f v :: vs
  | n + 1, f, v :: vs => v :: modifyIdx n f vs

/-- The values of column `c`, top to bottom ([] if the column is absent). -/
def colValues (t : Table) (c : String) : List Value :=
  match idxOf? c t.header with
  | none => []
  | some i => t.rows.map (fun r => r.getD i .na)

/-- Apply `f` to every cell of column `c` (no-op if the column is absent).
This is the shape of the column assignments `df[col] = f(df[col])`. -/
def mapCol (t : Table) (c : String) (f : Value → Value) : Table :=
  match idxOf? c t.header with
  | none => t
  | some i => ⟨t.header, t.rows.map (modifyIdx i f)⟩

/-- `drop_duplicates` keeps the first occurrence of every row value. -/
def dedupAux (seen : List (List Value)) : List (List Value) → List (List Value)
  | [] => []
  | r :: rs => if r ∈ seen then dedupAux seen rs else r :: dedupAux (r :: seen) rs

def dedupRows (rows : List (List Value)) : List (List Value) := dedupAux [] rows

/-- Characters removed by Python's default `str.strip`. -/
def isSp (c : Char) : Bool :=
  c = ' ' || c = '\t' || c = '\n' || c = '\x0d' || c = '\x0b' || c = '\x0c'

/-- ASCII lower/upper case pairs, the alphabet over which `str.title` and
`str.lower` act in this pipeline. -/
def upPairs : List (Char × Char) :=
  [ ('a', 'A'), ('b', 'B'), ('c', 'C'), ('d', 'D'), ('e', 'E'), ('f', 'F'),
    ('g', 'G'), ('h', 'H'), ('i', 'I'), ('j', 'J'), ('k', 'K'), ('l', 'L'),
    ('m', 'M'), ('n', 'N'), ('o', 'O'), ('p', 'P'), ('q', 'Q'), ('r', 'R'),
    ('s', 'S'), ('t', 'T'), ('u', 'U'), ('v', 'V'), ('w', 'W'), ('x', 'X'),
    ('y', 'Y'), ('z', 'Z') ]

def lowPairs : List (Char × Char) := upPairs.map (fun p => (p.2, p.1))

def upChar (c : Char) : Char := (List.lookup c upPairs).getD c

def lowChar (c : Char) : Char := (List.lookup c lowPairs).getD c

/-- One character of `str.title`: `prev` records whether the previous input
character was cased; a cased character opening a word is uppercased, a
cased character inside a word is lowercased, uncased characters pass through. -/
def applyCase (prev : Bool) (c : Char) : Char :=
  if c.isAlpha then (if prev then lowChar c else upChar c) else c

def titleAux : Bool → List Char → List Char
  | _, [] => []
  | prev, c :: cs => applyCase prev c :: titleAux c.isAlpha cs

/-- Python `str.title` on the character list of a string. -/
def titleStr (l : List Char) : List Char := titleAux false l

/-- Python `str.strip` (default whitespace) on the character list. -/
def stripChars (l : List Char) : List Char :=
  ((l.dropWhile isSp).reverse.dropWhile isSp).reverse

/-- `.str.strip().str.title()` on one string. -/
def normStr (s : String) : String := ⟨titleStr (stripChars s.data)⟩

/-- `.str.strip().str.title()` on one cell: pandas `.str` accessors send
every non-string cell (including missing) to missing. -/
def normCatVal : Value → Value
  | .str s => .str (normStr s)
  | _ => .na

def digitVal (c : Char) : Option ℕ :=
  if c.isDigit then some (c.toNat - 48) else none

def natOfDigits : List Char → ℕ → Option ℕ
  | [], acc => some acc
  | c :: cs, acc =>
    match digitVal c with
    | some d => natOfDigits cs (10 * acc + d) | none => none

/-- Unsigned decimal literal: digits with an optional single point, at least
one digit present on one side. -/
def parseRatCore (l : List Char) : Option ℚ :=
  let ip := l.takeWhile (· ≠ '.')
  let rest := l.dropWhile (· ≠ '.')
  match rest with
  | [] =>
    if ip = [] then none else (natOfDigits ip 0).map (fun n => (n : ℚ))
  | _ :: fp =>
    if ip = [] ∧ fp = [] then none else
    match natOfDigits ip 0, natOfDigits fp 0 with
    | some i, some f => some ((i : ℚ) + (f : ℚ) / ((10 : ℚ) ^ fp.length))
    | _, _ => none

/-- The numeric parser behind `pd.to_numeric(..., errors="coerce")` on
strings: optional sign then a decimal literal.  Pandas' grammar is wider
(exponents, padding whitespace); no surviving statement evaluates string
parsing, since a string in a configured numeric column makes the real
pipeline raise at the median step first (`clean_data?`). -/
def parseRat (s : String) : Option ℚ :=
  match s.data with
  | '-' :: rest => (parseRatCore rest).map (fun q => -q)
  | '+' :: rest => parseRatCore rest
  | l => parseRatCore l

/-- `pd.to_numeric(..., errors="coerce")` on one cell. -/
def toNumericVal : Value → Value
  | .num q => .num q
  | .str s => match parseRat s with | some q => .num q | none => .na
  | .date _ => .na
  | .na => .na

/-- `astype(int)`: C-style cast of a float, truncation toward zero (the
ceiling of a negative value, written through `Rat.floor`).  Exact for
values within the int64 range; outside it the numpy cast wraps, so the
truncation statements below are guarded by int64 bounds. -/
def truncQ (q : ℚ) : ℤ := if q < 0 then -(Rat.floor (-q)) else Rat.floor q

/-- The whole final coercion `pd.to_numeric(df[col],
errors="coerce").fillna(0).astype(int)` on one cell. -/
def coerceNumVal (v : Value) : Value :=
  match toNumericVal v with
  | .num q => .num ((truncQ q : ℤ) : ℚ)
  | _ => .num 0

/-- `fillna w` on one cell. -/
def fillVal (w : Value) (v : Value) : Value := if v = .na then w else v

/-- `df[col] = df[col].fillna(w)`. -/
def fillnaCol (t : Table) (c : String) (w : Value) : Table :=
  mapCol t c (fillVal w)

def numOf : Value → Option ℚ
  | .num q => some q
  | _ => none

/-- `Series.median`: mean of the middle pair (even count) or the middle
element (odd count) of the sorted non-missing numeric values; undefined
(`NaN`, here `none`) when there are none. -/
def medianOf (l : List ℚ) : Option ℚ :=
  let s := List.insertionSort (· ≤ ·) l
  if s.length = 0 then none
  else if s.length % 2 = 1 then some (s.getD (s.length / 2) 0)
  else some ((s.getD (s.length / 2 - 1) 0 + s.getD (s.length / 2) 0) / 2)

/-- Lines 30-34 of `etl.py` for one numeric column: compute the median of
the column and fill missing cells with it.  When the median is undefined
(`NaN`) the `fillna` is a no-op; when the column is absent the step is
skipped, and `colValues` being `[]` makes the same branch apply.  This
total model reads the median off the numeric cells only; it is faithful
exactly on columns of numeric-or-missing cells -- on a string-bearing
column pandas raises `TypeError` instead (see `clean_data?`), which is why
every theorem using this function carries an `IsNumOrNa` hypothesis. -/
def imputeNumeric (t : Table) (c : String) : Table :=
  match medianOf ((colValues t c).filterMap numOf) with
  | none => t
  | some m => fillnaCol t c (.num m)

/-- `pd.to_datetime(..., errors="coerce")` on one cell: datetimes pass
through; every other value is modelled as failing to parse (no claim
evaluates the coercion on a string that a datetime parser would accept). -/
def toDatetimeVal : Value → Value
  | .date d => .date d
  | _ => .na

/-- The column triple passed to `clean_data` (`numeric_columns`,
`categorical_columns`, `date_columns`); `None` in Python is the empty list. -/
structure ColumnSpec where
  numeric_columns : List String
  categorical_columns : List String
  date_columns : List String

/-- `clean_data` (lines 19-64 of `etl.py`): copy, drop duplicates, impute
numeric columns with their median, impute categorical columns with
"Unknown", coerce date columns and fill failures with the epoch, trim and
title-case categorical columns, and finally coerce numeric columns to
integers with unparseable values becoming 0 -- in exactly that order. -/
def clean_data (spec : ColumnSpec) (t : Table) : Table :=
  let t1 : Table := ⟨t.header, dedupRows t.rows⟩
  let t2 := spec.numeric_columns.foldl imputeNumeric t1
  let t3 := spec.categorical_columns.foldl
    (fun u c => fillnaCol u c (.str "Unknown")) t2
  let t4 := spec.date_columns.foldl
    (fun u c => fillnaCol (mapCol u c toDatetimeVal) c (.date 0)) t3
  let t5 := spec.categorical_columns.foldl (fun u c => mapCol u c normCatVal) t4
  spec.numeric_columns.foldl (fun u c => mapCol u c coerceNumVal) t5

/-- `Series.clip(lower, upper)` on one cell (`np.clip` order: lower bound
applied first, then upper); missing and non-numeric cells pass through. -/
def clipVal (lb ub : ℚ) : Value → Value
  | .num q => .num (min (max q lb) ub)
  | v => v

/-- `Series.quantile(q)` (linear interpolation) over an already sorted,
nonempty list: with `h = q * (n - 1)`, `i = floor h` and `g = h - i`, the
quantile is `s[i] + g * (s[i+1] - s[i])` (the `i+1` access only matters
when `g > 0`, in which case it is in range; the default keeps the formula
total). -/
def quantileSorted (s : List ℚ) (q : ℚ) : ℚ :=
  let n := s.length
  let h : ℚ := q * ((n : ℚ) - 1)
  let i : ℕ := (Rat.floor h).toNat
  let a := s.getD i 0
  let b := s.getD (i + 1) a
  a + (h - (i : ℚ)) * (b - a)

/-- Lines 69-73 of `etl.py`: `Q1`, `Q3` and the IQR fences of a column,
computed over its non-missing numeric values before any capping; `none`
when there are no such values (both quantiles are then `NaN` and the
subsequent `clip` is a no-op). -/
def outlierBounds (t : Table) (c : String) : Option (ℚ × ℚ) :=
  let nums := (colValues t c).filterMap numOf
  if nums = [] then none
  else
    let s := List.insertionSort (· ≤ ·) nums
    let q1 := quantileSorted s (1/4)
    let q3 := quantileSorted s (3/4)
    some (q1 - 3/2 * (q3 - q1), q3 + 3/2 * (q3 - q1))

/-- `handle_outliers` (lines 66-78 of `etl.py`): if the column is present,
cap it into the IQR fences; otherwise return the table unchanged. -/
def handle_outliers (t : Table) (c : String) : Table :=
  if c ∈ t.header then
    match outlierBounds t c with
    | none => t
    | some (lb, ub) => mapCol t c (clipVal lb ub)
  else t

/-- The `country_mapping` dictionary of `standardize_countries`. -/
def country_mapping : List (String × String) :=
  [ ("Usa", "United States"), ("Uk", "United Kingdom"),
    ("Uae", "United Arab Emirates") ]

/-- `Series.replace(mapping)` on one cell: exact, case-sensitive match
against the mapping keys; anything else (including non-strings) unchanged. -/
def replaceVal (m : List (String × String)) : Value → Value
  | .str s => match List.lookup s m with
    | some canon => .str canon
    | none => .str s
  | v => v

/-- `standardize_countries` (lines 80-90 of `etl.py`). -/
def standardize_countries (t : Table) (c : String) : Table :=
  if c ∈ t.header then mapCol t c (replaceVal country_mapping) else t

/-- `Series.between(lo, hi)` on one cell: inclusive on both ends and
`False` for missing cells, which pandas replaces by the lower bound just
like out-of-range numbers.  On string or datetime cells pandas raises
`TypeError` rather than returning `False`, so this total model is faithful
only on numeric-or-missing columns and the RangeValidator theorem carries
an `IsNumOrNa` hypothesis. -/
def betweenVal (lo hi : ℚ) : Value → Bool
  | .num q => decide (lo ≤ q) && decide (q ≤ hi)
  | _ => false

/-- `validate_data` (lines 118-124 of `etl.py`): when a range is supplied
and the column is present, every cell failing `between` is replaced by the
range's lower end. -/
def validate_data (t : Table) (c : String) (valid_range : Option (ℚ × ℚ)) : Table :=
  match valid_range with
  | none => t
  | some (lo, hi) =>
    if c ∈ t.header then
      mapCol t c (fun v => if betweenVal lo hi v then v else .num lo)
    else t

/-- Outcome of the weather HTTP fetch and JSON field extraction (lines
143-149): either a condition text and a temperature, or any exception. -/
inductive WeatherFetch where
  | ok (condition : String) (tempC : ℚ)
  | fail
deriving DecidableEq

/-- The dictionary returned by `get_weather_for_country`. -/
structure WeatherRecord where
  country : String
  weather_condition : String
  temperature_c : Value
  weather_risk : ℚ
deriving DecidableEq

/-- Python `str.lower` (the script only ever lowers ASCII text). -/
def lowerStr (s : String) : String := ⟨s.data.map lowChar⟩

def leadsWith : List Char → List Char → Bool
  | [], _ => true
  | _ :: _, [] => false
  | p :: ps, c :: cs => p = c && leadsWith ps cs

/-- Python's substring test `pat in l`. -/
def containsSub : List Char → List Char → Bool
  | [], pat => pat.isEmpty
  | l@(_ :: cs), pat => leadsWith pat l || containsSub cs pat

/-- `get_weather_for_country` (lines 141-161 of `etl.py`), as a function of
the fetch outcome. -/
def get_weather_for_country (country : String) (resp : WeatherFetch) : WeatherRecord :=
  match resp with
  | .ok condition tempC =>
    let lc := (lowerStr condition).data
    let weather_risk : ℚ :=
      if containsSub lc "storm".data || containsSub lc "rain".data then 8/10
      else if containsSub lc "snow".data then 7/10
      else 2/10
    ⟨country, condition, .num tempC, weather_risk⟩
  | .fail => ⟨country, "Unknown", .na, 5/10⟩

/-- Outcome of the news fetch (lines 171-185): either the list of TextBlob
sentiment polarities of the returned articles (one per article, empty when
the API returns no articles), or any exception. -/
inductive NewsFetch where
  | ok (polarities : List ℚ)
  | fail
deriving DecidableEq

/-- The dictionary returned by `get_news_sentiment_for_country`; in the
zero-articles case the code returns no `news_risk` key at all, modelled by
`none`. -/
structure NewsRecord where
  country : String
  news_sentiment : ℚ
  news_risk : Option ℚ
deriving DecidableEq

/-- `get_news_sentiment_for_country` (lines 169-192 of `etl.py`), as a
function of the fetch outcome. -/
def get_news_sentiment_for_country (country : String) (resp : NewsFetch) : NewsRecord :=
  match resp with
  | .ok [] => ⟨country, 0, none⟩
  | .ok ps@(_ :: _) =>
    let avg := ps.sum / (ps.length : ℚ)
    ⟨country, avg, some (1 - ((avg + 1) / 2))⟩
  | .fail => ⟨country, 0, some (5/10)⟩

def naRow (n : ℕ) : List Value := List.replicate n .na

/-- pandas suffixing on a merge: every column name also present in the
other frame gets the suffix. -/
def suffixIf (other : List String) (suf : String) (h : List String) : List String :=
  h.map (fun c => if c ∈ other then c ++ suf else c)

/-- `DataFrame.merge(..., left_on=k1, right_on=k2, how="left")`: every left
row is kept in order; it is paired with each right row whose key cell
equals its own (missing keys match missing keys, as in pandas), or padded
with missing cells when there is no match.  Overlapping column names
receive the `_x`/`_y` suffixes.  A missing key column raises `KeyError` in
pandas; that error case is modelled as the empty table. -/
def mergeLeft (t1 t2 : Table) (k1 k2 : String) : Table :=
  match idxOf? k1 t1.header, idxOf? k2 t2.header with
  | some i1, some i2 =>
    ⟨suffixIf t2.header "_x" t1.header ++ suffixIf t1.header "_y" t2.header,
     (t1.rows.map (fun r =>
        match t2.rows.filter (fun r2 => r2.getD i2 .na = r.getD i1 .na) with
        | [] => [r ++ naRow t2.header.length]
        | ms => ms.map (fun m => r ++ m))).flatten⟩
  | _, _ => ⟨[], []⟩

def maskFilter {α : Type} : List Bool → List α → List α
  | _, [] => []
  | [], _ => []
  | b :: bs, x :: xs => if b then x :: maskFilter bs xs else maskFilter bs xs

/-- `DataFrame.drop(columns=cs, errors="ignore")`. -/
def dropCols (t : Table) (cs : List String) : Table :=
  ⟨t.header.filter (fun c => !(cs.contains c)),
   t.rows.map (maskFilter (t.header.map (fun c => !(cs.contains c))))⟩

/-- Lines 214-218 of `etl.py`: left-merge the logistics table with the
weather table on `origin_country` = `country`, then with the news table on
the same key, then drop the duplicated key columns `country_x`/`country_y`. -/
def merged (logistics weather news : Table) : Table :=
  dropCols
    (mergeLeft (mergeLeft logistics weather "origin_country" "country")
      news "origin_country" "country")
    ["country_x", "country_y"]

/-- A call to `clean_data` seen from the caller: the pair of the returned
table and the value of the caller's `DataFrame` object after the call.
`clean_data` starts with `df = df.copy()`, so the argument is untouched. -/
def clean_data_call (spec : ColumnSpec) (t : Table) : Table × Table :=
  (clean_data spec t, t)

/-- A call to `handle_outliers` seen from the caller: the function writes
`df[column] = ...` into the frame it was passed and returns that same
object, so after the call the argument holds the returned table. -/
def handle_outliers_call (t : Table) (c : String) : Table × Table :=
  (handle_outliers t c, handle_outliers t c)

/-- A call to `standardize_countries` seen from the caller (in-place column
assignment, like `handle_outliers`). -/
def standardize_countries_call (t : Table) (c : String) : Table × Table :=
  (standardize_countries t c, standardize_countries t c)

/-- A call to `validate_data` seen from the caller (in-place `df.loc`
assignment). -/
def validate_data_call (t : Table) (c : String) (r : Option (ℚ × ℚ)) :
    Table × Table :=
  (validate_data t c r, validate_data t c r)

/-- The enrichment merge seen from the caller: `DataFrame.merge` allocates
a fresh frame, so all three argument tables are untouched. -/
def merged_call (logistics weather news : Table) :
    Table × (Table × Table × Table) :=
  (merged logistics weather news, (logistics, weather, news))

/-- The deduplication step of `clean_data` as a table operation. -/
def dedupT (t : Table) : Table := ⟨t.header, dedupRows t.rows⟩

/-- The cell holds an integral numeric value (the only kind `astype(int)`
produces). -/
def IsIntVal (v : Value) : Prop := ∃ k : ℤ, v = .num (k : ℚ)

/-- The cell holds a number (what a numeric column contains). -/
def IsNumVal (v : Value) : Prop := ∃ q : ℚ, v = .num q

instance (v : Value) : Decidable (IsNumVal v) := by
  unfold IsNumVal
  cases v
  case num q => exact .isTrue ⟨q, rfl⟩
  all_goals exact .isFalse (by rintro ⟨q, h⟩; simp_all)

/-- The cell holds a number or is missing: the content of a well-typed
numeric column (a float64 column, possibly with NaN).  This is the domain
on which the total models of `Series.median`, `Series.between` and the
final integer coercion are faithful; outside it pandas raises instead of
computing (see `clean_data?`). -/
def IsNumOrNa (v : Value) : Prop := v = .na ∨ ∃ q : ℚ, v = .num q

instance (v : Value) : Decidable (IsNumOrNa v) := by
  unfold IsNumOrNa
  cases v
  case num q => exact .isTrue (Or.inr ⟨q, rfl⟩)
  case na => exact .isTrue (Or.inl rfl)
  all_goals exact .isFalse (by rintro (h | ⟨q, h⟩) <;> simp_all)

/-- The cell holds a string. -/
def IsStrVal (v : Value) : Prop := ∃ s, v = .str s

/-- The cell holds a trimmed title-cased string (the image of `normStr`). -/
def IsNormVal (v : Value) : Prop := ∃ s, v = .str (normStr s)

/-- The cell holds a datetime. -/
def IsDateVal (v : Value) : Prop := ∃ d, v = .date d

/-- The cell holds a string or is missing (what a real-world categorical
column contains; a numeric cell in a categorical column makes the pandas
`.str` accessor misbehave or raise). -/
def IsStrOrNa (v : Value) : Prop := v = .na ∨ ∃ s, v = .str s

instance (v : Value) : Decidable (IsStrOrNa v) := by
  unfold IsStrOrNa
  cases v
  case str s => exact .isTrue (Or.inr ⟨s, rfl⟩)
  case na => exact .isTrue (Or.inl rfl)
  all_goals exact .isFalse (by rintro (h | ⟨s, h⟩) <;> simp_all)

/-! Basic lemmas about the table primitives. -/

theorem modifyIdx_nil {α : Type} (i : ℕ) (f : α → α) : modifyIdx i f [] = [] := by
  cases i <;> rfl

theorem idxOf?_eq_none_iff {c : String} {h : List String} :
    idxOf? c h = none ↔ c ∉ h := by
  induction h with
  | nil => simp [idxOf?]
  | cons x xs ih =>
    by_cases hx : x = c
    · subst hx
      simp [idxOf?]
    · simp only [idxOf?, if_neg hx, Option.map_eq_none', ih, List.mem_cons]
      constructor
      · intro hn hmem
        rcases hmem with rfl | hm
        · exact hx rfl
        · exact hn hm
      · intro hn hm
        exact hn (Or.inr hm)

theorem idxOf?_cons_succ {c x : String} {xs : List String} {i : ℕ}
    (hx : ¬ x = c) :
    idxOf? c (x :: xs) = some i ↔ ∃ j, idxOf? c xs = some j ∧ i = j + 1 := by
  simp only [idxOf?, if_neg hx, Option.map_eq_some']
  constructor
  · rintro ⟨j, hj, rfl⟩
    exact ⟨j, hj, rfl⟩
  · rintro ⟨j, hj, rfl⟩
    exact ⟨j, hj, rfl⟩

theorem idxOf?_lt_length {c : String} {h : List String} {i : ℕ}
    (hi : idxOf? c h = some i) : i < h.length := by
  induction h generalizing i with
  | nil => simp [idxOf?] at hi
  | cons x xs ih =>
    by_cases hx : x = c
    · simp only [idxOf?, if_pos hx, Option.some.injEq] at hi
      subst hi
      simp
    · obtain ⟨j, hj, rfl⟩ := (idxOf?_cons_succ hx).mp hi
      have := ih hj
      simp only [List.length_cons]
      omega

theorem idxOf?_getD {c : String} {h : List String} {i : ℕ}
    (hi : idxOf? c h = some i) : h.getD i "" = c := by
  induction h generalizing i with
  | nil => simp [idxOf?] at hi
  | cons x xs ih =>
    by_cases hx : x = c
    · simp only [idxOf?, if_pos hx, Option.some.injEq] at hi
      subst hi
      simpa using hx
    · obtain ⟨j, hj, rfl⟩ := (idxOf?_cons_succ hx).mp hi
      simpa using ih hj

theorem idxOf?_ne {c c' : String} {h : List String} {i i' : ℕ} (hne : c ≠ c')
    (hi : idxOf? c h = some i) (hi' : idxOf? c' h = some i') : i ≠ i' := by
  intro hcontra
  subst hcontra
  exact hne ((idxOf?_getD hi).symm.trans (idxOf?_getD hi'))

theorem length_modifyIdx {α : Type} (i : ℕ) (f : α → α) (l : List α) :
    (modifyIdx i f l).length = l.length := by
  induction l generalizing i with
  | nil => simp [modifyIdx_nil]
  | cons x xs ih =>
    cases i with
    | zero => rfl
    | succ n => simpa [modifyIdx] using ih n

theorem getD_modifyIdx_self {α : Type} {i : ℕ} {l : List α} (f : α → α) (d : α)
    (hi : i < l.length) : (modifyIdx i f l).getD i d = f (l.getD i d) := by
  induction l generalizing i with
  | nil => simp at hi
  | cons x xs ih =>
    cases i with
    | zero => rfl
    | succ n =>
      simp only [List.length_cons, Nat.succ_lt_succ_iff] at hi
      simpa [modifyIdx] using ih hi

theorem getD_modifyIdx_ne {α : Type} {i j : ℕ} (f : α → α) (d : α) (l : List α)
    (hij : i ≠ j) : (modifyIdx j f l).getD i d = l.getD i d := by
  induction l generalizing i j with
  | nil => simp [modifyIdx_nil]
  | cons x xs ih =>
    cases j with
    | zero =>
      cases i with
      | zero => exact absurd rfl hij
      | succ n => rfl
    | succ m =>
      cases i with
      | zero => rfl
      | succ n => simpa [modifyIdx] using ih (by omega)

theorem modifyIdx_ge {α : Type} {i : ℕ} (f : α → α) {l : List α}
    (hge : l.length ≤ i) : modifyIdx i f l = l := by
  induction l generalizing i with
  | nil => simp [modifyIdx_nil]
  | cons x xs ih =>
    cases i with
    | zero => simp at hge
    | succ n =>
      simp only [List.length_cons, Nat.succ_le_succ_iff] at hge
      simp [modifyIdx, ih hge]

theorem modifyIdx_eq_self {α : Type} {i : ℕ} {f : α → α} {l : List α} (d : α)
    (hfix : f (l.getD i d) = l.getD i d) (hlt : i < l.length) :
    modifyIdx i f l = l := by
  induction l generalizing i with
  | nil => simp [modifyIdx_nil]
  | cons x xs ih =>
    cases i with
    | zero => simpa [modifyIdx, List.getD] using hfix
    | succ n =>
      simp only [List.length_cons, Nat.succ_lt_succ_iff] at hlt
      simp only [List.getD_cons_succ] at hfix
      simp [modifyIdx, ih hfix hlt]

theorem modifyIdx_modifyIdx {α : Type} (i : ℕ) (f g : α → α) (l : List α) :
    modifyIdx i g (modifyIdx i f l) = modifyIdx i (fun v => g (f v)) l := by
  induction l generalizing i with
  | nil => simp [modifyIdx_nil]
  | cons x xs ih =>
    cases i with
    | zero => rfl
    | succ n => simp [modifyIdx, ih]

theorem mapCol_header (t : Table) (c : String) (f : Value → Value) :
    (mapCol t c f).header = t.header := by
  unfold mapCol
  cases idxOf? c t.header <;> rfl

theorem mapCol_WF {t : Table} (c : String) (f : Value → Value) (hwf : t.WF) :
    (mapCol t c f).WF := by
  unfold mapCol
  cases h : idxOf? c t.header with
  | none => exact hwf
  | some i =>
    intro r hr
    simp only [List.mem_map] at hr
    obtain ⟨r0, hr0, rfl⟩ := hr
    simpa [length_modifyIdx] using hwf r0 hr0

theorem colValues_mapCol_self {t : Table} {c : String} (f : Value → Value)
    (hwf : t.WF) : colValues (mapCol t c f) c = (colValues t c).map f := by
  unfold colValues mapCol
  cases h : idxOf? c t.header with
  | none => simp [h]
  | some i =>
    simp only [h, List.map_map]
    refine List.map_congr_left fun r hr => ?_
    have hlen : r.length = t.header.length := hwf r hr
    have hlt : i < r.length := hlen ▸ idxOf?_lt_length h
    exact getD_modifyIdx_self f .na hlt

theorem colValues_mapCol_ne {t : Table} {c c' : String} (f : Value → Value)
    (hne : c ≠ c') : colValues (mapCol t c' f) c = colValues t c := by
  unfold colValues mapCol
  cases h' : idxOf? c' t.header with
  | none => simp
  | some i' =>
    cases h : idxOf? c t.header with
    | none => simp [h]
    | some i =>
      simp only [h, List.map_map]
      refine List.map_congr_left fun r hr => ?_
      exact getD_modifyIdx_ne f .na r (idxOf?_ne hne h h')

theorem mapCol_eq_self {t : Table} {c : String} {f : Value → Value}
    (hfix : ∀ v ∈ colValues t c, f v = v) : mapCol t c f = t := by
  unfold mapCol
  cases h : idxOf? c t.header with
  | none => rfl
  | some i =>
    have hrows : t.rows.map (modifyIdx i f) = t.rows := by
      have : ∀ r ∈ t.rows, modifyIdx i f r = id r := by
        intro r hr
        rcases Nat.lt_or_ge i r.length with hlt | hge
        · refine modifyIdx_eq_self .na ?_ hlt
          refine hfix _ ?_
          unfold colValues
          simp only [h, List.mem_map]
          exact ⟨r, hr, rfl⟩
        · exact modifyIdx_ge f hge
      rw [List.map_congr_left this, List.map_id]
    calc (⟨t.header, t.rows.map (modifyIdx i f)⟩ : Table)
        = ⟨t.header, t.rows⟩ := by rw [hrows]
      _ = t := rfl

theorem mapCol_mapCol_self (t : Table) (c : String) (f g : Value → Value) :
    mapCol (mapCol t c f) c g = mapCol t c (fun v => g (f v)) := by
  unfold mapCol
  cases h : idxOf? c t.header with
  | none => simp [h]
  | some i =>
    simp only [h, List.map_map]
    congr 1
    refine List.map_congr_left fun r _ => ?_
    exact modifyIdx_modifyIdx i f g r

/-! Value-level facts about the numeric coercion. -/

theorem ratFloor_eq (q : ℚ) : Rat.floor q = ⌊q⌋ := by
  rw [Rat.floor_def', ← Rat.floor_def]

theorem truncQ_eq (q : ℚ) : truncQ q = if q < 0 then ⌈q⌉ else ⌊q⌋ := by
  unfold truncQ
  rw [ratFloor_eq, ratFloor_eq, Int.floor_neg, neg_neg]

theorem truncQ_intCast (k : ℤ) : truncQ (k : ℚ) = k := by
  rw [truncQ_eq]
  split <;> simp

theorem coerceNumVal_int (v : Value) : IsIntVal (coerceNumVal v) := by
  unfold coerceNumVal
  cases h : toNumericVal v with
  | num q => exact ⟨truncQ q, rfl⟩
  | na => exact ⟨0, by norm_num⟩
  | str s => exact ⟨0, by norm_num⟩
  | date d => exact ⟨0, by norm_num⟩

theorem coerceNumVal_fix {v : Value} (hv : IsIntVal v) : coerceNumVal v = v := by
  obtain ⟨k, rfl⟩ := hv
  show Value.num ((truncQ (k : ℚ) : ℤ) : ℚ) = Value.num (k : ℚ)
  rw [truncQ_intCast]

/-! Deduplication lemmas. -/

theorem mem_of_mem_dedupAux {r : List Value} :
    ∀ {seen rows : List (List Value)}, r ∈ dedupAux seen rows → r ∈ rows := by
  intro seen rows
  induction rows generalizing seen with
  | nil => simp [dedupAux]
  | cons x xs ih =>
    unfold dedupAux
    split
    · intro h
      exact List.mem_cons_of_mem x (ih h)
    · intro h
      rcases List.mem_cons.mp h with rfl | h
      · exact List.mem_cons_self _ _
      · exact List.mem_cons_of_mem x (ih h)

theorem dedupT_header (t : Table) : (dedupT t).header = t.header := rfl

theorem dedupT_WF {t : Table} (hwf : t.WF) : (dedupT t).WF := by
  intro r hr
  exact hwf r (mem_of_mem_dedupAux hr)

theorem mem_colValues_dedupT {t : Table} {c : String} {v : Value}
    (hv : v ∈ colValues (dedupT t) c) : v ∈ colValues t c := by
  unfold colValues dedupT at *
  cases h : idxOf? c t.header with
  | none => simp [h] at hv
  | some i =>
    simp only [h, List.mem_map] at hv ⊢
    obtain ⟨r, hr, rfl⟩ := hv
    exact ⟨r, mem_of_mem_dedupAux hr, rfl⟩

/-! Fold machinery: the per-column loops of `clean_data` traverse a list of
column names with a step function that preserves the header and
rectangularity and touches only its own column. -/

theorem foldl_step_header {step : Table → String → Table}
    (h1 : ∀ u c, (step u c).header = u.header) (l : List String) (t : Table) :
    (l.foldl step t).header = t.header := by
  induction l generalizing t with
  | nil => rfl
  | cons c0 rest ih => rw [List.foldl_cons, ih, h1]

theorem foldl_step_WF {step : Table → String → Table}
    (h2 : ∀ u c, u.WF → (step u c).WF) (l : List String) {t : Table}
    (hwf : t.WF) : (l.foldl step t).WF := by
  induction l generalizing t with
  | nil => exact hwf
  | cons c0 rest ih => exact ih (h2 t c0 hwf)

theorem colValues_foldl_notmem {step : Table → String → Table} {c : String}
    (h3 : ∀ u c', c ≠ c' → colValues (step u c') c = colValues u c)
    {l : List String} (hc : c ∉ l) (t : Table) :
    colValues (l.foldl step t) c = colValues t c := by
  induction l generalizing t with
  | nil => rfl
  | cons c0 rest ih =>
    simp only [List.mem_cons, not_or] at hc
    rw [List.foldl_cons, ih hc.2, h3 t c0 hc.1]

theorem colValues_foldl_keep {step : Table → String → Table} {c : String}
    {P : Value → Prop}
    (h2 : ∀ u c', u.WF → (step u c').WF)
    (h3 : ∀ u c', c ≠ c' → colValues (step u c') c = colValues u c)
    (hkeep : ∀ u, u.WF → (∀ v ∈ colValues u c, P v) →
      ∀ v ∈ colValues (step u c) c, P v) :
    ∀ (l : List String) (u : Table), u.WF → (∀ v ∈ colValues u c, P v) →
      ∀ v ∈ colValues (l.foldl step u) c, P v := by
  intro l
  induction l with
  | nil => exact fun u _ hP => hP
  | cons c0 rest ih =>
    intro u hwf hP
    rw [List.foldl_cons]
    refine ih (step u c0) (h2 u c0 hwf) ?_
    by_cases hc : c = c0
    · subst hc
      exact hkeep u hwf hP
    · intro v hv
      rw [h3 u c0 hc] at hv
      exact hP v hv

theorem colValues_foldl_pred {step : Table → String → Table} {c : String}
    {P : Value → Prop} {Q : List Value → Prop}
    (h2 : ∀ u c', u.WF → (step u c').WF)
    (h3 : ∀ u c', c ≠ c' → colValues (step u c') c = colValues u c)
    (hest : ∀ u, u.WF → Q (colValues u c) → ∀ v ∈ colValues (step u c) c, P v)
    (hkeep : ∀ u, u.WF → (∀ v ∈ colValues u c, P v) →
      ∀ v ∈ colValues (step u c) c, P v) :
    ∀ (l : List String) (u : Table), c ∈ l → u.WF → Q (colValues u c) →
      ∀ v ∈ colValues (l.foldl step u) c, P v := by
  intro l
  induction l with
  | nil => simp
  | cons c0 rest ih =>
    intro u hmem hwf hQ
    rw [List.foldl_cons]
    by_cases hc : c = c0
    · subst hc
      exact colValues_foldl_keep h2 h3 hkeep rest (step u c)
        (h2 u c hwf) (hest u hwf hQ)
    · rcases List.mem_cons.mp hmem with rfl | hrest
      · exact absurd rfl hc
      · refine ih (step u c0) hrest (h2 u c0 hwf) ?_
        rwa [h3 u c0 hc]

theorem foldl_eq_self {step : Table → String → Table} {l : List String}
    {u : Table} (h : ∀ c' ∈ l, step u c' = u) : l.foldl step u = u := by
  induction l with
  | nil => rfl
  | cons c0 rest ih =>
    rw [List.foldl_cons, h c0 (List.mem_cons_self c0 rest)]
    exact ih fun c' hc' => h c' (List.mem_cons_of_mem c0 hc')

/-! Stage lemmas for `clean_data`. -/

theorem fillnaCol_header (t : Table) (c : String) (w : Value) :
    (fillnaCol t c w).header = t.header := mapCol_header t c _

theorem imputeNumeric_header (t : Table) (c : String) :
    (imputeNumeric t c).header = t.header := by
  unfold imputeNumeric
  cases medianOf ((colValues t c).filterMap numOf) with
  | none => rfl
  | some m => exact fillnaCol_header t c _

theorem imputeNumeric_WF {t : Table} (c : String) (hwf : t.WF) :
    (imputeNumeric t c).WF := by
  unfold imputeNumeric
  cases medianOf ((colValues t c).filterMap numOf) with
  | none => exact hwf
  | some m => exact mapCol_WF c _ hwf

theorem colValues_imputeNumeric_ne {t : Table} {c c' : String} (hne : c ≠ c') :
    colValues (imputeNumeric t c') c = colValues t c := by
  unfold imputeNumeric
  cases medianOf ((colValues t c').filterMap numOf) with
  | none => rfl
  | some m => exact colValues_mapCol_ne _ hne

theorem imputeNumeric_eq_self {t : Table} {c : String}
    (hna : ∀ v ∈ colValues t c, v ≠ .na) : imputeNumeric t c = t := by
  unfold imputeNumeric
  cases medianOf ((colValues t c).filterMap numOf) with
  | none => rfl
  | some m =>
    refine mapCol_eq_self fun v hv => ?_
    unfold fillVal
    rw [if_neg (hna v hv)]

theorem dateStep_eq (u : Table) (c : String) :
    fillnaCol (mapCol u c toDatetimeVal) c (.date 0)
      = mapCol u c (fun v => fillVal (.date 0) (toDatetimeVal v)) := by
  unfold fillnaCol
  exact mapCol_mapCol_self u c _ _

/-- `clean_data` written as the five folds over a deduplicated table. -/
theorem clean_data_eq (spec : ColumnSpec) (t : Table) :
    clean_data spec t =
      spec.numeric_columns.foldl (fun u c => mapCol u c coerceNumVal)
        (spec.categorical_columns.foldl (fun u c => mapCol u c normCatVal)
          (spec.date_columns.foldl
            (fun u c => fillnaCol (mapCol u c toDatetimeVal) c (.date 0))
            (spec.categorical_columns.foldl
              (fun u c => fillnaCol u c (.str "Unknown"))
              (spec.numeric_columns.foldl imputeNumeric (dedupT t))))) := rfl

theorem clean_data_header (spec : ColumnSpec) (t : Table) :
    (clean_data spec t).header = t.header := by
  rw [clean_data_eq]
  rw [foldl_step_header (fun u c => mapCol_header u c _)]
  rw [foldl_step_header (fun u c => mapCol_header u c _)]
  rw [foldl_step_header
    (fun u c => (fillnaCol_header _ c _).trans (mapCol_header u c _))]
  rw [foldl_step_header (fun u c => fillnaCol_header u c _)]
  rw [foldl_step_header imputeNumeric_header]
  rfl

theorem clean_data_WF {spec : ColumnSpec} {t : Table} (hwf : t.WF) :
    (clean_data spec t).WF := by
  rw [clean_data_eq]
  refine foldl_step_WF (fun u c => mapCol_WF c _) _ ?_
  refine foldl_step_WF (fun u c => mapCol_WF c _) _ ?_
  refine foldl_step_WF (fun u c h => ?_) _ ?_
  · exact mapCol_WF c _ (mapCol_WF c _ h)
  refine foldl_step_WF (fun u c => mapCol_WF c _) _ ?_
  refine foldl_step_WF (fun u c => imputeNumeric_WF c) _ ?_
  exact dedupT_WF hwf

/-- After `clean_data`, every cell of a configured numeric column is an
integral number: the final coercion stage guarantees it whatever came
before. -/
theorem clean_numeric_int {spec : ColumnSpec} {t : Table} {c : String}
    (hc : c ∈ spec.numeric_columns) (hwf : t.WF) :
    ∀ v ∈ colValues (clean_data spec t) c, IsIntVal v := by
  rw [clean_data_eq]
  refine colValues_foldl_pred (Q := fun _ => True)
    (fun u c' => mapCol_WF c' _) (fun u c' => colValues_mapCol_ne _)
    ?_ ?_ _ _ hc ?_ trivial
  · intro u huwf _ v hv
    rw [colValues_mapCol_self _ huwf] at hv
    obtain ⟨w, _, rfl⟩ := List.mem_map.mp hv
    exact coerceNumVal_int w
  · intro u huwf _ v hv
    rw [colValues_mapCol_self _ huwf] at hv
    obtain ⟨w, _, rfl⟩ := List.mem_map.mp hv
    exact coerceNumVal_int w
  · -- the earlier stages preserve rectangularity
    refine foldl_step_WF (fun u c' => mapCol_WF c' _) _ ?_
    refine foldl_step_WF (fun u c' h => mapCol_WF c' _ (mapCol_WF c' _ h)) _ ?_
    refine foldl_step_WF (fun u c' => mapCol_WF c' _) _ ?_
    refine foldl_step_WF (fun u c' => imputeNumeric_WF c') _ ?_
    exact dedupT_WF hwf

theorem fillVal_of_ne_na {w v : Value} (hv : v ≠ .na) : fillVal w v = v := by
  unfold fillVal
  rw [if_neg hv]

theorem fillVal_strOrNa {v : Value} (hv : IsStrOrNa v) :
    IsStrVal (fillVal (.str "Unknown") v) := by
  rcases hv with rfl | ⟨s, rfl⟩
  · exact ⟨"Unknown", rfl⟩
  · exact ⟨s, fillVal_of_ne_na (by simp)⟩

theorem fillVal_str_keep {w : Value} {v : Value} (hv : IsStrVal v) :
    IsStrVal (fillVal w v) := by
  obtain ⟨s, rfl⟩ := hv
  exact ⟨s, fillVal_of_ne_na (by simp)⟩

theorem normCatVal_str {v : Value} (hv : IsStrVal v) :
    IsNormVal (normCatVal v) := by
  obtain ⟨s, rfl⟩ := hv
  exact ⟨s, rfl⟩

theorem normCatVal_norm_keep {v : Value} (hv : IsNormVal v) :
    IsNormVal (normCatVal v) := by
  obtain ⟨s, rfl⟩ := hv
  exact ⟨normStr s, rfl⟩

theorem dateStepVal_date (v : Value) :
    IsDateVal (fillVal (.date 0) (toDatetimeVal v)) := by
  cases v with
  | date d => exact ⟨d, rfl⟩
  | na => exact ⟨0, rfl⟩
  | num q => exact ⟨0, rfl⟩
  | str s => exact ⟨0, rfl⟩

theorem colValues_dateStep_ne {u : Table} {c c' : String} (hne : c ≠ c') :
    colValues (fillnaCol (mapCol u c' toDatetimeVal) c' (.date 0)) c
      = colValues u c := by
  unfold fillnaCol
  rw [colValues_mapCol_ne _ hne, colValues_mapCol_ne _ hne]

/-- After `clean_data`, a categorical column that is not also configured as
numeric or temporal and that held only strings and missing values holds
only trimmed title-cased strings. -/
theorem clean_cat_norm {spec : ColumnSpec} {t : Table} {c : String}
    (hc : c ∈ spec.categorical_columns)
    (hnotnum : c ∉ spec.numeric_columns)
    (hnotdate : c ∉ spec.date_columns)
    (hwf : t.WF)
    (hvals : ∀ v ∈ colValues t c, IsStrOrNa v) :
    ∀ v ∈ colValues (clean_data spec t) c, IsNormVal v := by
  rw [clean_data_eq]
  have hwf0 : (dedupT t).WF := dedupT_WF hwf
  have hwf1 := foldl_step_WF (fun u c' => imputeNumeric_WF c')
    spec.numeric_columns hwf0
  have hwf2 : (spec.categorical_columns.foldl
      (fun u c' => fillnaCol u c' (.str "Unknown"))
      (spec.numeric_columns.foldl imputeNumeric (dedupT t))).WF :=
    foldl_step_WF (fun u c' => mapCol_WF c' _) _ hwf1
  have hwf3 : (spec.date_columns.foldl
      (fun u c' => fillnaCol (mapCol u c' toDatetimeVal) c' (.date 0))
      (spec.categorical_columns.foldl
        (fun u c' => fillnaCol u c' (.str "Unknown"))
        (spec.numeric_columns.foldl imputeNumeric (dedupT t)))).WF :=
    foldl_step_WF
      (fun u (c' : String) h => mapCol_WF c' _ (mapCol_WF c' toDatetimeVal h))
      _ hwf2
  intro v hv
  rw [colValues_foldl_notmem (fun u c' => colValues_mapCol_ne _) hnotnum] at hv
  refine colValues_foldl_pred (Q := fun vs => ∀ v ∈ vs, IsStrVal v)
    (fun u c' => mapCol_WF c' _) (fun u c' => colValues_mapCol_ne _)
    ?_ ?_ _ _ hc hwf3 ?_ v hv
  · intro u huwf hQ w hw
    rw [colValues_mapCol_self _ huwf] at hw
    obtain ⟨x, hx, rfl⟩ := List.mem_map.mp hw
    exact normCatVal_str (hQ x hx)
  · intro u huwf hP w hw
    rw [colValues_mapCol_self _ huwf] at hw
    obtain ⟨x, hx, rfl⟩ := List.mem_map.mp hw
    obtain ⟨s, rfl⟩ := hP x hx
    exact ⟨normStr s, rfl⟩
  · -- the column holds strings once the "Unknown" imputation has run
    intro w hw
    rw [colValues_foldl_notmem (fun u c' => colValues_dateStep_ne) hnotdate]
      at hw
    refine colValues_foldl_pred (Q := fun vs => ∀ v ∈ vs, IsStrOrNa v)
      (fun u c' => mapCol_WF c' _) (fun u c' => colValues_mapCol_ne _)
      ?_ ?_ _ _ hc hwf1 ?_ w hw
    · intro u huwf hQ x hx
      rw [colValues_mapCol_self _ huwf] at hx
      obtain ⟨y, hy, rfl⟩ := List.mem_map.mp hx
      exact fillVal_strOrNa (hQ y hy)
    · intro u huwf hP x hx
      rw [colValues_mapCol_self _ huwf] at hx
      obtain ⟨y, hy, rfl⟩ := List.mem_map.mp hx
      exact fillVal_str_keep (hP y hy)
    · intro x hx
      rw [colValues_foldl_notmem
        (fun u c' => colValues_imputeNumeric_ne) hnotnum] at hx
      exact hvals x (mem_colValues_dedupT hx)

/-- After `clean_data`, a date column that is not also configured as
numeric or categorical holds only datetimes. -/
theorem clean_date_dateval {spec : ColumnSpec} {t : Table} {c : String}
    (hc : c ∈ spec.date_columns)
    (hnotnum : c ∉ spec.numeric_columns)
    (hnotcat : c ∉ spec.categorical_columns)
    (hwf : t.WF) :
    ∀ v ∈ colValues (clean_data spec t) c, IsDateVal v := by
  rw [clean_data_eq]
  have hwf0 : (dedupT t).WF := dedupT_WF hwf
  have hwf1 := foldl_step_WF (fun u c' => imputeNumeric_WF c')
    spec.numeric_columns hwf0
  have hwf2 : (spec.categorical_columns.foldl
      (fun u c' => fillnaCol u c' (.str "Unknown"))
      (spec.numeric_columns.foldl imputeNumeric (dedupT t))).WF :=
    foldl_step_WF (fun u c' => mapCol_WF c' _) _ hwf1
  intro v hv
  rw [colValues_foldl_notmem (fun u c' => colValues_mapCol_ne _) hnotnum] at hv
  rw [colValues_foldl_notmem (fun u c' => colValues_mapCol_ne _) hnotcat] at hv
  refine colValues_foldl_pred (Q := fun _ => True)
    (fun u (c' : String) h => mapCol_WF c' _ (mapCol_WF c' toDatetimeVal h))
    (fun u c' => colValues_dateStep_ne)
    ?_ ?_ _ _ hc hwf2 trivial v hv
  · intro u huwf _ w hw
    rw [mapCol_mapCol_self, colValues_mapCol_self _ huwf] at hw
    obtain ⟨x, _, rfl⟩ := List.mem_map.mp hw
    exact dateStepVal_date x
  · intro u huwf _ w hw
    rw [mapCol_mapCol_self, colValues_mapCol_self _ huwf] at hw
    obtain ⟨x, _, rfl⟩ := List.mem_map.mp hw
    exact dateStepVal_date x

/-! Character-level facts about the ASCII case maps, derived by checking the
finite `upPairs`/`lowPairs` tables. -/

theorem lookup_mem {α β : Type} [BEq α] [LawfulBEq α] {l : List (α × β)}
    {k : α} {v : β} (h : List.lookup k l = some v) : (k, v) ∈ l := by
  induction l with
  | nil => simp [List.lookup] at h
  | cons p ps ih =>
    obtain ⟨a, b⟩ := p
    rw [List.lookup_cons] at h
    cases hkb : (k == a) with
    | false =>
      rw [hkb] at h
      exact List.mem_cons_of_mem _ (ih h)
    | true =>
      rw [hkb] at h
      obtain rfl : b = v := Option.some.inj h
      obtain rfl : k = a := by simpa using hkb
      exact List.mem_cons_self _ _

theorem isAlpha_upChar (c : Char) : (upChar c).isAlpha = c.isAlpha := by
  unfold upChar
  cases h : List.lookup c upPairs with
  | none => rfl
  | some v =>
    have hfact : ∀ p ∈ upPairs, p.1.isAlpha = true ∧ p.2.isAlpha = true := by
      decide
    obtain ⟨h1, h2⟩ := hfact _ (lookup_mem h)
    simp only [Option.getD_some]
    rw [h2, h1]

theorem isAlpha_lowChar (c : Char) : (lowChar c).isAlpha = c.isAlpha := by
  unfold lowChar
  cases h : List.lookup c lowPairs with
  | none => rfl
  | some v =>
    have hfact : ∀ p ∈ lowPairs, p.1.isAlpha = true ∧ p.2.isAlpha = true := by
      decide
    obtain ⟨h1, h2⟩ := hfact _ (lookup_mem h)
    simp only [Option.getD_some]
    rw [h2, h1]

theorem isSp_upChar (c : Char) : isSp (upChar c) = isSp c := by
  unfold upChar
  cases h : List.lookup c upPairs with
  | none => rfl
  | some v =>
    have hfact : ∀ p ∈ upPairs, isSp p.1 = false ∧ isSp p.2 = false := by decide
    obtain ⟨h1, h2⟩ := hfact _ (lookup_mem h)
    simp only [Option.getD_some]
    rw [h2, h1]

theorem isSp_lowChar (c : Char) : isSp (lowChar c) = isSp c := by
  unfold lowChar
  cases h : List.lookup c lowPairs with
  | none => rfl
  | some v =>
    have hfact : ∀ p ∈ lowPairs, isSp p.1 = false ∧ isSp p.2 = false := by
      decide
    obtain ⟨h1, h2⟩ := hfact _ (lookup_mem h)
    simp only [Option.getD_some]
    rw [h2, h1]

theorem upChar_upChar (c : Char) : upChar (upChar c) = upChar c := by
  cases h : List.lookup c upPairs with
  | none =>
    have hc : upChar c = c := by unfold upChar; rw [h]; rfl
    rw [hc, hc]
  | some v =>
    have hv : upChar c = v := by unfold upChar; rw [h]; rfl
    have hfact : ∀ p ∈ upPairs, List.lookup p.2 upPairs = none := by decide
    have hnone := hfact _ (lookup_mem h)
    rw [hv]
    unfold upChar
    rw [hnone]
    rfl

theorem lowChar_lowChar (c : Char) : lowChar (lowChar c) = lowChar c := by
  cases h : List.lookup c lowPairs with
  | none =>
    have hc : lowChar c = c := by unfold lowChar; rw [h]; rfl
    rw [hc, hc]
  | some v =>
    have hv : lowChar c = v := by unfold lowChar; rw [h]; rfl
    have hfact : ∀ p ∈ lowPairs, List.lookup p.2 lowPairs = none := by decide
    have hnone := hfact _ (lookup_mem h)
    rw [hv]
    unfold lowChar
    rw [hnone]
    rfl

theorem isAlpha_applyCase (b : Bool) (c : Char) :
    (applyCase b c).isAlpha = c.isAlpha := by
  unfold applyCase
  by_cases ha : c.isAlpha
  · rw [if_pos ha]
    cases b with
    | true => simp [isAlpha_lowChar]
    | false => simp [isAlpha_upChar]
  · rw [if_neg ha]

theorem isSp_applyCase (b : Bool) (c : Char) : isSp (applyCase b c) = isSp c := by
  unfold applyCase
  by_cases ha : c.isAlpha
  · rw [if_pos ha]
    cases b with
    | true => simp [isSp_lowChar]
    | false => simp [isSp_upChar]
  · rw [if_neg ha]

theorem applyCase_applyCase (b : Bool) (c : Char) :
    applyCase b (applyCase b c) = applyCase b c := by
  have step : ∀ d : Char, d.isAlpha = true →
      applyCase b d = if b then lowChar d else upChar d := by
    intro d hd
    unfold applyCase
    rw [if_pos hd]
  by_cases ha : c.isAlpha
  · have ha2 : (applyCase b c).isAlpha = true := by rw [isAlpha_applyCase]; exact ha
    cases b with
    | true =>
      rw [step _ ha2, step _ ha]
      simp [lowChar_lowChar]
    | false =>
      rw [step _ ha2, step _ ha]
      simp [upChar_upChar]
  · have hb : applyCase b c = c := by unfold applyCase; rw [if_neg ha]
    rw [hb, hb]

/-! `str.title` and `str.strip` interaction. -/

theorem titleAux_skel (b : Bool) (l : List Char) :
    (titleAux b l).map isSp = l.map isSp := by
  induction l generalizing b with
  | nil => rfl
  | cons c cs ih => simp [titleAux, isSp_applyCase, ih]

theorem titleAux_titleAux (b : Bool) (l : List Char) :
    titleAux b (titleAux b l) = titleAux b l := by
  induction l generalizing b with
  | nil => rfl
  | cons c cs ih =>
    simp only [titleAux]
    rw [isAlpha_applyCase, applyCase_applyCase, ih]

theorem length_dropWhile_le {α : Type} (p : α → Bool) (l : List α) :
    (l.dropWhile p).length ≤ l.length :=
  (List.dropWhile_suffix p).sublist.length_le

theorem dropWhile_head_false {α : Type} {p : α → Bool} {l : List α} {c : α}
    {cs : List α} (h : l.dropWhile p = c :: cs) : p c = false := by
  induction l with
  | nil => simp [List.dropWhile] at h
  | cons x xs ih =>
    rw [List.dropWhile_cons] at h
    by_cases hx : p x = true
    · rw [if_pos hx] at h
      exact ih h
    · rw [if_neg hx] at h
      obtain rfl : x = c := (List.cons.injEq x xs c cs ▸ h).1
      simpa using hx

theorem dropWhile_idem {α : Type} (p : α → Bool) (l : List α) :
    List.dropWhile p (List.dropWhile p l) = List.dropWhile p l := by
  cases h : List.dropWhile p l with
  | nil => rfl
  | cons c cs =>
    rw [List.dropWhile_cons, if_neg (by simp [dropWhile_head_false h])]

theorem dropWhile_eq_self_of_skel {x y : List Char}
    (hskel : y.map isSp = x.map isSp) (hx : x.dropWhile isSp = x) :
    y.dropWhile isSp = y := by
  cases x with
  | nil =>
    cases y with
    | nil => rfl
    | cons b bs => simp at hskel
  | cons a as =>
    cases y with
    | nil => rfl
    | cons b bs =>
      simp only [List.map_cons, List.cons.injEq] at hskel
      have ha : isSp a = false := dropWhile_head_false hx
      rw [List.dropWhile_cons, if_neg (by simp [hskel.1, ha])]

theorem stripChars_eq_self_of {l : List Char} (h1 : l.dropWhile isSp = l)
    (h2 : l.reverse.dropWhile isSp = l.reverse) : stripChars l = l := by
  unfold stripChars
  rw [h1, h2, List.reverse_reverse]

theorem dropWhile_parts_of_stripChars {l : List Char} (h : stripChars l = l) :
    l.dropWhile isSp = l ∧ l.reverse.dropWhile isSp = l.reverse := by
  unfold stripChars at h
  have hlen := congrArg List.length h
  simp only [List.length_reverse] at hlen
  have hA : (l.dropWhile isSp).length ≤ l.length := length_dropWhile_le _ _
  have hB : ((l.dropWhile isSp).reverse.dropWhile isSp).length
      ≤ (l.dropWhile isSp).length := by
    have := length_dropWhile_le isSp (l.dropWhile isSp).reverse
    simpa using this
  have hAeq : l.dropWhile isSp = l :=
    (List.dropWhile_suffix isSp).eq_of_length (by omega)
  refine ⟨hAeq, ?_⟩
  rw [hAeq] at h
  rw [List.reverse_eq_iff] at h
  exact h

theorem stripChars_idem (l : List Char) :
    stripChars (stripChars l) = stripChars l := by
  refine stripChars_eq_self_of ?_ ?_
  · -- the stripped list, reversed back, is a prefix of the once left-trimmed
    -- list, whose head is not whitespace
    show List.dropWhile isSp (stripChars l) = stripChars l
    unfold stripChars
    have hpre : ((l.dropWhile isSp).reverse.dropWhile isSp).reverse
        <+: l.dropWhile isSp := by
      rw [← List.reverse_suffix, List.reverse_reverse]
      exact List.dropWhile_suffix isSp
    cases hBr : ((l.dropWhile isSp).reverse.dropWhile isSp).reverse with
    | nil => rfl
    | cons c cs =>
      rw [hBr] at hpre
      obtain ⟨T, hT⟩ := hpre
      have hA : List.dropWhile isSp (l.dropWhile isSp) = l.dropWhile isSp :=
        dropWhile_idem _ _
      rw [← hT, List.cons_append] at hA
      have hc : isSp c = false := dropWhile_head_false hA
      rw [List.dropWhile_cons, if_neg (by simp [hc])]
  · show List.dropWhile isSp (stripChars l).reverse = (stripChars l).reverse
    unfold stripChars
    rw [List.reverse_reverse]
    exact dropWhile_idem _ _

theorem stripChars_titleStr {x : List Char} (hx : stripChars x = x) :
    stripChars (titleStr x) = titleStr x := by
  obtain ⟨h1, h2⟩ := dropWhile_parts_of_stripChars hx
  refine stripChars_eq_self_of ?_ ?_
  · exact dropWhile_eq_self_of_skel (titleAux_skel false x) h1
  · refine dropWhile_eq_self_of_skel ?_ h2
    rw [List.map_reverse, List.map_reverse]
    simp only [titleStr]
    rw [titleAux_skel]

theorem normStr_idem (s : String) : normStr (normStr s) = normStr s := by
  show (⟨titleStr (stripChars
    (String.data ⟨titleStr (stripChars s.data)⟩))⟩ : String)
      = ⟨titleStr (stripChars s.data)⟩
  have hx : stripChars (stripChars s.data) = stripChars s.data :=
    stripChars_idem s.data
  have h1 : stripChars (titleStr (stripChars s.data))
      = titleStr (stripChars s.data) := stripChars_titleStr hx
  show (⟨titleStr (stripChars (titleStr (stripChars s.data)))⟩ : String) = _
  rw [h1]
  show (⟨titleAux false (titleAux false (stripChars s.data))⟩ : String) = _
  rw [titleAux_titleAux]
  rfl

/-- C1, counterexample: Cleaner is not idempotent.  On the table with one
numeric column `x` holding 2.4 and 2.6, the first run truncates both values
to the integer 2; the two rows, distinct in the input, are now equal, so
the second run's deduplication removes one of them and the output shrinks
from two rows to one. -/
theorem clean_data_not_idempotent_cex :
    clean_data ⟨["x"], [], []⟩ (clean_data ⟨["x"], [], []⟩
        ⟨["x"], [[.num (12/5)], [.num (13/5)]]⟩)
      ≠ clean_data ⟨["x"], [], []⟩ ⟨["x"], [[.num (12/5)], [.num (13/5)]]⟩ := by
  decide

/-- C1 (amended): on a rectangular table whose numeric, categorical and date
column lists are pairwise disjoint, whose numeric columns hold only
numeric and missing values (on a string-bearing numeric column the program
instead raises at the median step, see `clean_data?`), and whose
categorical columns hold only strings and missing values, re-running
Cleaner on its own output performs exactly one change: it deduplicates the
rows again.  The imputations find no missing values and the temporal,
categorical and integer coercions are all fixed points on cleaned values,
but the first run's coercions can collapse previously distinct rows into
duplicates, so the second run's deduplication may still remove rows;
Cleaner is idempotent exactly when its output is duplicate-free. -/
theorem clean_data_idem_amended {spec : ColumnSpec} {t : Table} (hwf : t.WF)
    (hcn : ∀ c ∈ spec.categorical_columns, c ∉ spec.numeric_columns)
    (hcd : ∀ c ∈ spec.categorical_columns, c ∉ spec.date_columns)
    (hdn : ∀ c ∈ spec.date_columns, c ∉ spec.numeric_columns)
    (hdc : ∀ c ∈ spec.date_columns, c ∉ spec.categorical_columns)
    (_hnum : ∀ c ∈ spec.numeric_columns, ∀ v ∈ colValues t c, IsNumOrNa v)
    (hcat : ∀ c ∈ spec.categorical_columns, ∀ v ∈ colValues t c, IsStrOrNa v) :
    clean_data spec (clean_data spec t) = dedupT (clean_data spec t) := by
  have hywf : (clean_data spec t).WF := clean_data_WF hwf
  have hznum : ∀ c ∈ spec.numeric_columns,
      ∀ v ∈ colValues (dedupT (clean_data spec t)) c, IsIntVal v :=
    fun c hc v hv => clean_numeric_int hc hwf v (mem_colValues_dedupT hv)
  have hzcat : ∀ c ∈ spec.categorical_columns,
      ∀ v ∈ colValues (dedupT (clean_data spec t)) c, IsNormVal v :=
    fun c hc v hv => clean_cat_norm hc (hcn c hc) (hcd c hc) hwf (hcat c hc) v
      (mem_colValues_dedupT hv)
  have hzdate : ∀ c ∈ spec.date_columns,
      ∀ v ∈ colValues (dedupT (clean_data spec t)) c, IsDateVal v :=
    fun c hc v hv => clean_date_dateval hc (hdn c hc) (hdc c hc) hwf v
      (mem_colValues_dedupT hv)
  rw [clean_data_eq spec (clean_data spec t)]
  have e2 : spec.numeric_columns.foldl imputeNumeric
      (dedupT (clean_data spec t)) = dedupT (clean_data spec t) := by
    refine foldl_eq_self fun c' hc' => imputeNumeric_eq_self fun v hv => ?_
    obtain ⟨k, rfl⟩ := hznum c' hc' v hv
    simp
  rw [e2]
  have e3 : spec.categorical_columns.foldl
      (fun u c => fillnaCol u c (.str "Unknown"))
      (dedupT (clean_data spec t)) = dedupT (clean_data spec t) := by
    refine foldl_eq_self fun c' hc' => mapCol_eq_self fun v hv => ?_
    obtain ⟨s, rfl⟩ := hzcat c' hc' v hv
    exact fillVal_of_ne_na (by simp)
  rw [e3]
  have e4 : spec.date_columns.foldl
      (fun u c => fillnaCol (mapCol u c toDatetimeVal) c (.date 0))
      (dedupT (clean_data spec t)) = dedupT (clean_data spec t) := by
    refine foldl_eq_self fun c' hc' => ?_
    have h1 : mapCol (dedupT (clean_data spec t)) c' toDatetimeVal
        = dedupT (clean_data spec t) := by
      refine mapCol_eq_self fun v hv => ?_
      obtain ⟨d, rfl⟩ := hzdate c' hc' v hv
      rfl
    show fillnaCol (mapCol (dedupT (clean_data spec t)) c' toDatetimeVal) c'
      (.date 0) = dedupT (clean_data spec t)
    rw [h1]
    refine mapCol_eq_self fun v hv => ?_
    obtain ⟨d, rfl⟩ := hzdate c' hc' v hv
    exact fillVal_of_ne_na (by simp)
  rw [e4]
  have e5 : spec.categorical_columns.foldl (fun u c => mapCol u c normCatVal)
      (dedupT (clean_data spec t)) = dedupT (clean_data spec t) := by
    refine foldl_eq_self fun c' hc' => mapCol_eq_self fun v hv => ?_
    obtain ⟨s, rfl⟩ := hzcat c' hc' v hv
    show Value.str (normStr (normStr s)) = Value.str (normStr s)
    rw [normStr_idem]
  rw [e5]
  refine foldl_eq_self fun c' hc' => mapCol_eq_self fun v hv => ?_
  exact coerceNumVal_fix (hznum c' hc' v hv)

/-- C1 witness: the amended theorem applied to a concrete two-column table
(a categorical column `a` and a numeric column `b`). -/
theorem clean_data_idem_amended_witness :
    (Table.WF ⟨["a", "b"], [[.str " usa ", .num 1], [.na, .num (5/2)]]⟩
      ∧ (∀ c ∈ ["b"], ∀ v ∈ colValues
          ⟨["a", "b"], [[.str " usa ", .num 1], [.na, .num (5/2)]]⟩ c,
          IsNumOrNa v)
      ∧ (∀ c ∈ ["a"], ∀ v ∈ colValues
          ⟨["a", "b"], [[.str " usa ", .num 1], [.na, .num (5/2)]]⟩ c,
          IsStrOrNa v))
    ∧ clean_data ⟨["b"], ["a"], []⟩ (clean_data ⟨["b"], ["a"], []⟩
        ⟨["a", "b"], [[.str " usa ", .num 1], [.na, .num (5/2)]]⟩)
      = dedupT (clean_data ⟨["b"], ["a"], []⟩
        ⟨["a", "b"], [[.str " usa ", .num 1], [.na, .num (5/2)]]⟩) :=
  ⟨⟨by decide, by decide, by decide⟩,
    clean_data_idem_amended (by decide) (by decide) (by decide) (by decide)
      (by decide) (by decide) (by decide)⟩

/-- C2, counterexample: `handle_outliers` is not a pure function of its
argument that leaves the passed table object unchanged: it assigns the
capped column into the very frame it was given (`df[column] = ...`) and
returns that same object.  On a column holding 0, 0, 0, 100 the IQR fences
are [-37.5, 62.5], so 100 is capped to 62.5 and the caller's object differs
from the table that was passed in. -/
theorem component_purity_cex :
    (handle_outliers_call ⟨["x"], [[.num 0], [.num 0], [.num 0], [.num 100]]⟩
        "x").2
      ≠ ⟨["x"], [[.num 0], [.num 0], [.num 0], [.num 100]]⟩ := by
  decide

/-- C2 (amended): no component keeps state across calls and each returned
table is a function of the arguments and configuration alone, but only
`clean_data` (which copies first) and the enrichment merge (which builds a
fresh frame) leave the table object passed in unchanged;
`handle_outliers`, `standardize_countries` and `validate_data` mutate their
argument in place, so after the call the caller's object equals the
returned table rather than the original. -/
theorem component_call_mutation (spec : ColumnSpec) (t u : Table) (c : String)
    (r : Option (ℚ × ℚ)) (L W N : Table) :
    (clean_data_call spec t).2 = t
    ∧ (handle_outliers_call u c).2 = (handle_outliers_call u c).1
    ∧ (standardize_countries_call u c).2 = (standardize_countries_call u c).1
    ∧ (validate_data_call u c r).2 = (validate_data_call u c r).1
    ∧ (merged_call L W N).2 = (L, W, N) :=
  ⟨rfl, rfl, rfl, rfl, rfl⟩

theorem colValues_of_not_mem {t : Table} {c : String} (hc : c ∉ t.header) :
    colValues t c = [] := by
  unfold colValues
  rw [idxOf?_eq_none_iff.mpr hc]

theorem betweenVal_true_iff {lo hi : ℚ} {v : Value} :
    betweenVal lo hi v = true ↔ ∃ q, v = .num q ∧ lo ≤ q ∧ q ≤ hi := by
  cases v with
  | num q =>
    simp only [betweenVal, Bool.and_eq_true, decide_eq_true_eq]
    constructor
    · rintro ⟨h1, h2⟩
      exact ⟨q, rfl, h1, h2⟩
    · rintro ⟨q', hq, h1, h2⟩
      obtain rfl : q = q' := by simpa using hq
      exact ⟨h1, h2⟩
  | na => simp [betweenVal]
  | str s => simp [betweenVal]
  | date d => simp [betweenVal]

/-- C4: on a numeric column (cells numeric or missing -- on string or
datetime cells `Series.between` raises instead), with a supplied range
whose ends satisfy `min ≤ max`, `validate_data` maps the column cell-wise,
replacing exactly the cells that fail the inclusive `between` test (every
numeric value strictly outside `[min, max]`, and every missing cell) by
`min` and leaving in-range values unchanged; afterwards every cell of the
column is a number inside `[min, max]`.  It is a no-op when no range is
supplied or the column is absent.  In particular a `transit_time_days`
value of 400 with range [0, 365] becomes 0. -/
theorem validate_data_spec {t : Table} {c : String} {lo hi : ℚ}
    (hwf : t.WF) (hle : lo ≤ hi)
    (_hnum : ∀ v ∈ colValues t c, IsNumOrNa v) :
    (validate_data t c none = t)
    ∧ (c ∉ t.header → validate_data t c (some (lo, hi)) = t)
    ∧ (c ∈ t.header → colValues (validate_data t c (some (lo, hi))) c
        = (colValues t c).map
            (fun v => if betweenVal lo hi v then v else .num lo))
    ∧ (∀ q : ℚ, lo ≤ q → q ≤ hi →
        (if betweenVal lo hi (.num q) then (Value.num q) else .num lo)
          = .num q)
    ∧ (∀ q : ℚ, ¬ (lo ≤ q ∧ q ≤ hi) →
        (if betweenVal lo hi (.num q) then (Value.num q) else .num lo)
          = .num lo)
    ∧ (∀ v ∈ colValues (validate_data t c (some (lo, hi))) c,
        ∃ q, v = .num q ∧ lo ≤ q ∧ q ≤ hi)
    ∧ validate_data ⟨["transit_time_days"], [[.num 400], [.num 10]]⟩
        "transit_time_days" (some (0, 365))
        = ⟨["transit_time_days"], [[.num 0], [.num 10]]⟩ := by
  refine ⟨rfl, ?_, ?_, ?_, ?_, ?_, by decide⟩
  · intro hc
    simp only [validate_data]
    rw [if_neg hc]
  · intro hc
    simp only [validate_data]
    rw [if_pos hc]
    exact colValues_mapCol_self _ hwf
  · intro q h1 h2
    rw [if_pos (betweenVal_true_iff.mpr ⟨q, rfl, h1, h2⟩)]
  · intro q hq
    rw [if_neg ?_]
    intro hbt
    obtain ⟨q', hq', h1, h2⟩ := betweenVal_true_iff.mp hbt
    obtain rfl : q = q' := by simpa using hq'
    exact hq ⟨h1, h2⟩
  · intro v hv
    by_cases hc : c ∈ t.header
    · simp only [validate_data] at hv
      rw [if_pos hc, colValues_mapCol_self _ hwf] at hv
      obtain ⟨x, _, rfl⟩ := List.mem_map.mp hv
      by_cases hbt : betweenVal lo hi x = true
      · obtain ⟨q, rfl, h1, h2⟩ := betweenVal_true_iff.mp hbt
        rw [if_pos hbt]
        exact ⟨q, rfl, h1, h2⟩
      · rw [if_neg hbt]
        exact ⟨lo, rfl, le_refl lo, hle⟩
    · simp only [validate_data] at hv
      rw [if_neg hc] at hv
      rw [colValues_of_not_mem hc] at hv
      simp at hv

/-- C4 witness: the theorem applied to the concrete logistics-like table;
the out-of-range value 400 is replaced by the lower end 0. -/
theorem validate_data_spec_witness :
    (Table.WF ⟨["transit_time_days"], [[.num 400], [.num 10]]⟩
      ∧ (0 : ℚ) ≤ 365
      ∧ (∀ v ∈ colValues ⟨["transit_time_days"], [[.num 400], [.num 10]]⟩
          "transit_time_days", IsNumOrNa v))
    ∧ validate_data ⟨["transit_time_days"], [[.num 400], [.num 10]]⟩
        "transit_time_days" (some (0, 365))
        = ⟨["transit_time_days"], [[.num 0], [.num 10]]⟩ :=
  ⟨⟨by decide, by norm_num, by decide⟩,
    (@validate_data_spec ⟨["transit_time_days"], [[.num 400], [.num 10]]⟩
      "transit_time_days" 0 365 (by decide) (by norm_num)
      (by decide)).2.2.2.2.2.2⟩

/-! CategoryMapper (C9). -/

theorem replaceVal_not_key {v : Value}
    (h : ∀ k canon, (k, canon) ∈ country_mapping → v ≠ .str k) :
    replaceVal country_mapping v = v := by
  cases v with
  | str s =>
    cases hl : List.lookup s country_mapping with
    | none =>
      show (match List.lookup s country_mapping with
        | some canon => Value.str canon
        | none => Value.str s) = Value.str s
      rw [hl]
    | some canon => exact absurd rfl (h s canon (lookup_mem hl))
  | na => rfl
  | num q => rfl
  | date d => rfl

theorem replaceVal_replaceVal (v : Value) :
    replaceVal country_mapping (replaceVal country_mapping v)
      = replaceVal country_mapping v := by
  cases v with
  | str s =>
    cases hl : List.lookup s country_mapping with
    | none =>
      have he : replaceVal country_mapping (.str s) = .str s := by
        show (match List.lookup s country_mapping with
          | some canon => Value.str canon
          | none => Value.str s) = Value.str s
        rw [hl]
      rw [he, he]
    | some canon =>
      have he : replaceVal country_mapping (.str s) = .str canon := by
        show (match List.lookup s country_mapping with
          | some canon => Value.str canon
          | none => Value.str s) = Value.str canon
        rw [hl]
      rw [he]
      have hfact : ∀ p ∈ country_mapping,
          List.lookup p.2 country_mapping = none := by decide
      have hnone := hfact _ (lookup_mem hl)
      show (match List.lookup canon country_mapping with
        | some c2 => Value.str c2
        | none => Value.str canon) = Value.str canon
      rw [hnone]
  | na => rfl
  | num q => rfl
  | date d => rfl

/-- C9: `standardize_countries` is a pure per-cell substitution: on the
target column (when present) it maps each cell through the configured
country mapping, rewriting a cell exactly when it equals a mapping key
under case-sensitive exact match ("Usa" becomes "United States") and
leaving every other cell unchanged; since the canonical values are not
themselves keys, applying it twice gives the same table as applying it
once; it is a no-op when the column is absent. -/
theorem standardize_countries_subst (t : Table) (c : String) (hwf : t.WF) :
    (c ∈ t.header → colValues (standardize_countries t c) c
        = (colValues t c).map (replaceVal country_mapping))
    ∧ (c ∉ t.header → standardize_countries t c = t)
    ∧ (∀ p ∈ country_mapping,
        replaceVal country_mapping (.str p.1) = .str p.2)
    ∧ (∀ v, (∀ k canon, (k, canon) ∈ country_mapping → v ≠ .str k) →
        replaceVal country_mapping v = v)
    ∧ replaceVal country_mapping (.str "Usa") = .str "United States"
    ∧ standardize_countries (standardize_countries t c) c
        = standardize_countries t c := by
  refine ⟨?_, ?_, by decide, fun v => replaceVal_not_key, by decide, ?_⟩
  · intro hc
    simp only [standardize_countries]
    rw [if_pos hc]
    exact colValues_mapCol_self _ hwf
  · intro hc
    simp only [standardize_countries]
    rw [if_neg hc]
  · by_cases hc : c ∈ t.header
    · have h1 : standardize_countries t c
          = mapCol t c (replaceVal country_mapping) := by
        simp only [standardize_countries]
        rw [if_pos hc]
      rw [h1]
      have hc2 : c ∈ (mapCol t c (replaceVal country_mapping)).header := by
        rw [mapCol_header]
        exact hc
      have h2 : standardize_countries
          (mapCol t c (replaceVal country_mapping)) c
          = mapCol (mapCol t c (replaceVal country_mapping)) c
              (replaceVal country_mapping) := by
        simp only [standardize_countries]
        rw [if_pos hc2]
      rw [h2, mapCol_mapCol_self]
      have he : (fun v => replaceVal country_mapping
          (replaceVal country_mapping v)) = replaceVal country_mapping :=
        funext replaceVal_replaceVal
      rw [he]
    · have h1 : standardize_countries t c = t := by
        simp only [standardize_countries]
        rw [if_neg hc]
      rw [h1, h1]

/-- C9 witness: the theorem applied to a one-column table holding the
normalized value "Usa". -/
theorem standardize_countries_subst_witness :
    Table.WF ⟨["origin_country"], [[.str "Usa"]]⟩
    ∧ standardize_countries (standardize_countries
        ⟨["origin_country"], [[.str "Usa"]]⟩ "origin_country")
        "origin_country"
      = standardize_countries ⟨["origin_country"], [[.str "Usa"]]⟩
          "origin_country" :=
  ⟨by decide,
    (standardize_countries_subst ⟨["origin_country"], [[.str "Usa"]]⟩
      "origin_country" (by decide)).2.2.2.2.2⟩

/-! Weather source (C6) and news source (C7). -/

/-- C6: the weather record carries the fetched condition text and
temperature for the requested country, with risk 0.8 when the
lower-cased condition contains "storm" or "rain", 0.7 when it contains
"snow" (and neither of the former), and 0.2 otherwise; on any fetch or
parse failure the record is exactly (condition "Unknown", missing
temperature, risk 0.5). -/
theorem get_weather_spec (country condition : String) (tempC : ℚ) :
    get_weather_for_country country .fail
      = ⟨country, "Unknown", .na, 5/10⟩
    ∧ (get_weather_for_country country (.ok condition tempC)).country
        = country
    ∧ (get_weather_for_country country (.ok condition tempC)).weather_condition
        = condition
    ∧ (get_weather_for_country country (.ok condition tempC)).temperature_c
        = .num tempC
    ∧ ((containsSub (lowerStr condition).data "storm".data
          || containsSub (lowerStr condition).data "rain".data) = true →
        (get_weather_for_country country (.ok condition tempC)).weather_risk
          = 8/10)
    ∧ ((containsSub (lowerStr condition).data "storm".data
          || containsSub (lowerStr condition).data "rain".data) = false →
        containsSub (lowerStr condition).data "snow".data = true →
        (get_weather_for_country country (.ok condition tempC)).weather_risk
          = 7/10)
    ∧ ((containsSub (lowerStr condition).data "storm".data
          || containsSub (lowerStr condition).data "rain".data) = false →
        containsSub (lowerStr condition).data "snow".data = false →
        (get_weather_for_country country (.ok condition tempC)).weather_risk
          = 2/10) := by
  refine ⟨rfl, rfl, rfl, rfl, ?_, ?_, ?_⟩
  · intro h
    show (if (containsSub (lowerStr condition).data "storm".data
        || containsSub (lowerStr condition).data "rain".data) = true
      then (8/10 : ℚ)
      else if containsSub (lowerStr condition).data "snow".data = true
        then 7/10 else 2/10) = 8/10
    rw [if_pos h]
  · intro h1 h2
    show (if (containsSub (lowerStr condition).data "storm".data
        || containsSub (lowerStr condition).data "rain".data) = true
      then (8/10 : ℚ)
      else if containsSub (lowerStr condition).data "snow".data = true
        then 7/10 else 2/10) = 7/10
    rw [if_neg (by rw [h1]; exact Bool.false_ne_true), if_pos h2]
  · intro h1 h2
    show (if (containsSub (lowerStr condition).data "storm".data
        || containsSub (lowerStr condition).data "rain".data) = true
      then (8/10 : ℚ)
      else if containsSub (lowerStr condition).data "snow".data = true
        then 7/10 else 2/10) = 2/10
    rw [if_neg (by rw [h1]; exact Bool.false_ne_true),
      if_neg (by rw [h2]; exact Bool.false_ne_true)]

/-- C6 witness: on a successful fetch with condition "Light Rain shower"
the risk is 0.8; the claim's failure example for "Ruritania" comes from the
same theorem. -/
theorem get_weather_spec_witness :
    (get_weather_for_country "France" (.ok "Light Rain shower" 5)).weather_risk
      = 8/10
    ∧ get_weather_for_country "Ruritania" .fail
        = ⟨"Ruritania", "Unknown", .na, 5/10⟩ :=
  ⟨(get_weather_spec "France" "Light Rain shower" 5).2.2.2.2.1 (by decide),
    (get_weather_spec "Ruritania" "x" 0).1⟩

/-- C7: the news record averages the per-article polarities and maps the
average through risk = 1 - ((avg + 1) / 2), so an average polarity of -1
yields risk 1.0 and +1 yields risk 0.0; with zero articles the code
returns sentiment 0.0 and no risk field at all; on fetch failure it
returns sentiment 0.0 with risk 0.5. -/
theorem get_news_spec (country : String) (ps : List ℚ) :
    get_news_sentiment_for_country country .fail
      = ⟨country, 0, some (5/10)⟩
    ∧ get_news_sentiment_for_country country (.ok []) = ⟨country, 0, none⟩
    ∧ (ps ≠ [] →
        get_news_sentiment_for_country country (.ok ps)
          = ⟨country, ps.sum / (ps.length : ℚ),
             some (1 - ((ps.sum / (ps.length : ℚ) + 1) / 2))⟩)
    ∧ (get_news_sentiment_for_country country (.ok [-1])).news_risk = some 1
    ∧ (get_news_sentiment_for_country country (.ok [1])).news_risk = some 0 := by
  refine ⟨rfl, rfl, ?_, ?_, ?_⟩
  · intro hne
    cases ps with
    | nil => exact absurd rfl hne
    | cons p ps' => rfl
  · show some (1 - (((-1 : ℚ) / ((1 : ℕ) : ℚ) + 1) / 2)) = some 1
    norm_num
  · show some (1 - (((1 : ℚ) / ((1 : ℕ) : ℚ) + 1) / 2)) = some 0
    norm_num

/-- C7 witness: the theorem applied to a single article of polarity 1/2:
the sentiment is the average 1/2 and the risk is 1 - ((1/2 + 1) / 2) = 1/4. -/
theorem get_news_spec_witness :
    get_news_sentiment_for_country "France" (.ok [1/2])
      = ⟨"France", 1/2, some (1/4)⟩ := by
  have h := (get_news_spec "France" [1/2]).2.2.1 (by decide)
  rw [h]
  decide

/-! OutlierCapper (C3): the linear-interpolation quantile is monotone in the
quantile level on a sorted list, so Q1 at level 1/4 never exceeds Q3 at
level 3/4 and the IQR fences are properly ordered. -/

theorem getD_default_irrel {s : List ℚ} {i : ℕ} (hi : i < s.length)
    (d d' : ℚ) : s.getD i d = s.getD i d' := by
  rw [List.getD_eq_getElem _ _ hi, List.getD_eq_getElem _ _ hi]

theorem sorted_getD_mono {s : List ℚ} (hs : List.Sorted (· ≤ ·) s) {i j : ℕ}
    (hij : i ≤ j) (hj : j < s.length) : s.getD i 0 ≤ s.getD j 0 := by
  have hi : i < s.length := Nat.lt_of_le_of_lt hij hj
  rw [List.getD_eq_getElem _ _ hi, List.getD_eq_getElem _ _ hj]
  rcases Nat.lt_or_ge i j with hlt | hge
  · have := List.pairwise_iff_get.mp hs ⟨i, hi⟩ ⟨j, hj⟩ (by simpa using hlt)
    simpa [List.get_eq_getElem] using this
  · have heq : i = j := Nat.le_antisymm hij hge
    subst heq
    exact le_refl _

theorem quantile_idx_facts {n : ℕ} (hn : 1 ≤ n) {q : ℚ} (hq0 : 0 ≤ q)
    (hq1 : q ≤ 1) :
    (((Rat.floor (q * ((n : ℚ) - 1))).toNat : ℚ) ≤ q * ((n : ℚ) - 1)
      ∧ q * ((n : ℚ) - 1) < ((Rat.floor (q * ((n : ℚ) - 1))).toNat : ℚ) + 1)
    ∧ (Rat.floor (q * ((n : ℚ) - 1))).toNat < n := by
  have hn1 : (0 : ℚ) ≤ (n : ℚ) - 1 := by
    have h1 : (1 : ℚ) ≤ (n : ℚ) := by exact_mod_cast hn
    linarith
  have hh0 : 0 ≤ q * ((n : ℚ) - 1) := mul_nonneg hq0 hn1
  rw [ratFloor_eq]
  have hfl0 : 0 ≤ ⌊q * ((n : ℚ) - 1)⌋ := Int.floor_nonneg.mpr hh0
  have hcast : ((⌊q * ((n : ℚ) - 1)⌋.toNat : ℕ) : ℚ)
      = ((⌊q * ((n : ℚ) - 1)⌋ : ℤ) : ℚ) := by
    exact_mod_cast Int.toNat_of_nonneg hfl0
  refine ⟨⟨?_, ?_⟩, ?_⟩
  · rw [hcast]
    exact Int.floor_le _
  · rw [hcast]
    exact Int.lt_floor_add_one _
  · have hle : q * ((n : ℚ) - 1) ≤ (n : ℚ) - 1 := mul_le_of_le_one_left hn1 hq1
    have h2 : ⌊q * ((n : ℚ) - 1)⌋ ≤ ⌊(n : ℚ) - 1⌋ := Int.floor_mono hle
    have h3 : ⌊(n : ℚ) - 1⌋ = (n : ℤ) - 1 := by
      rw [show ((n : ℚ) - 1) = (((n : ℤ) - 1 : ℤ) : ℚ) by push_cast; ring]
      exact Int.floor_intCast _
    rw [h3] at h2
    omega

theorem quantileSorted_mono {s : List ℚ} (hs : List.Sorted (· ≤ ·) s)
    (hne : s ≠ []) {q1 q3 : ℚ} (h0 : 0 ≤ q1) (h13 : q1 ≤ q3) (h31 : q3 ≤ 1) :
    quantileSorted s q1 ≤ quantileSorted s q3 := by
  have hn : 1 ≤ s.length := List.length_pos.mpr hne
  have hn1 : (0 : ℚ) ≤ (s.length : ℚ) - 1 := by
    have h1 : (1 : ℚ) ≤ (s.length : ℚ) := by exact_mod_cast hn
    linarith
  obtain ⟨⟨hle1, hlt1⟩, hi1n⟩ := quantile_idx_facts hn h0 (le_trans h13 h31)
  obtain ⟨⟨hle3, hlt3⟩, hi3n⟩ := quantile_idx_facts hn (le_trans h0 h13) h31
  have hab : ∀ i : ℕ, i < s.length →
      s.getD i 0 ≤ s.getD (i + 1) (s.getD i 0) := by
    intro i hi
    rcases Nat.lt_or_ge (i + 1) s.length with hlt | hge
    · rw [getD_default_irrel hlt _ 0]
      exact sorted_getD_mono hs (Nat.le_succ i) hlt
    · rw [List.getD_eq_default _ _ hge]
  have hi13 : (Rat.floor (q1 * ((s.length : ℚ) - 1))).toNat
      ≤ (Rat.floor (q3 * ((s.length : ℚ) - 1))).toNat := by
    rw [ratFloor_eq, ratFloor_eq]
    exact Int.toNat_le_toNat
      (Int.floor_mono (mul_le_mul_of_nonneg_right h13 hn1))
  simp only [quantileSorted]
  set i1 := (Rat.floor (q1 * ((s.length : ℚ) - 1))).toNat with hi1def
  set i3 := (Rat.floor (q3 * ((s.length : ℚ) - 1))).toNat with hi3def
  rcases Nat.lt_or_ge i1 i3 with hcase | hcase
  · -- the two levels interpolate in different segments
    have hi11 : i1 + 1 ≤ i3 := hcase
    have hi11n : i1 + 1 < s.length := Nat.lt_of_le_of_lt hi11 hi3n
    rw [getD_default_irrel hi11n (s.getD i1 0) 0]
    have hb1 : s.getD i1 0 ≤ s.getD (i1 + 1) 0 :=
      sorted_getD_mono hs (Nat.le_succ i1) hi11n
    have hmid : s.getD (i1 + 1) 0 ≤ s.getD i3 0 :=
      sorted_getD_mono hs hi11 hi3n
    have hb3 : s.getD i3 0 ≤ s.getD (i3 + 1) (s.getD i3 0) := hab i3 hi3n
    have hg1 : q1 * ((s.length : ℚ) - 1) - (i1 : ℚ) ≤ 1 := by linarith
    have hg1nn : 0 ≤ q1 * ((s.length : ℚ) - 1) - (i1 : ℚ) := by linarith
    have hg3nn : 0 ≤ q3 * ((s.length : ℚ) - 1) - (i3 : ℚ) := by linarith
    nlinarith [mul_nonneg hg3nn (sub_nonneg.mpr hb3),
      mul_le_mul_of_nonneg_right hg1 (sub_nonneg.mpr hb1),
      mul_nonneg hg1nn (sub_nonneg.mpr hb1)]
  · -- both levels interpolate in the same segment
    have heq : i1 = i3 := Nat.le_antisymm hi13 hcase
    rw [← heq]
    have hba := hab i1 hi1n
    have hg13 : q1 * ((s.length : ℚ) - 1) - (i1 : ℚ)
        ≤ q3 * ((s.length : ℚ) - 1) - (i1 : ℚ) := by
      have := mul_le_mul_of_nonneg_right h13 hn1
      linarith
    nlinarith [mul_le_mul_of_nonneg_right hg13 (sub_nonneg.mpr hba)]

theorem outlierBounds_le {t : Table} {c : String} {lb ub : ℚ}
    (h : outlierBounds t c = some (lb, ub)) : lb ≤ ub := by
  simp only [outlierBounds] at h
  by_cases hnil : (colValues t c).filterMap numOf = []
  · rw [if_pos hnil] at h
    exact absurd h (by simp)
  · rw [if_neg hnil] at h
    have hsorted : List.Sorted (· ≤ ·)
        (List.insertionSort (· ≤ ·) ((colValues t c).filterMap numOf)) :=
      List.sorted_insertionSort _ _
    have hne : List.insertionSort (· ≤ ·) ((colValues t c).filterMap numOf)
        ≠ [] := by
      intro hcontra
      apply hnil
      have := (List.perm_insertionSort (· ≤ ·)
        ((colValues t c).filterMap numOf)).length_eq
      rw [hcontra] at this
      exact List.length_eq_zero.mp this.symm
    have hq : quantileSorted
        (List.insertionSort (· ≤ ·) ((colValues t c).filterMap numOf)) (1/4)
        ≤ quantileSorted
        (List.insertionSort (· ≤ ·) ((colValues t c).filterMap numOf)) (3/4) :=
      quantileSorted_mono hsorted hne (by norm_num) (by norm_num) (by norm_num)
    obtain ⟨rfl, rfl⟩ : lb = _ ∧ ub = _ :=
      ⟨(Prod.mk.injEq _ _ _ _ ▸ Option.some.inj h).1.symm,
       (Prod.mk.injEq _ _ _ _ ▸ Option.some.inj h).2.symm⟩
    linarith

/-- C3: when the column is present and numeric, `handle_outliers` computes
the IQR fences [Q1 - 1.5 IQR, Q3 + 1.5 IQR] from the column's quartiles
before any capping and clips the column cell-wise: values below the lower
fence become the lower fence, values above the upper fence become the upper
fence, all other values are unchanged, and afterwards every cell lies
within the fences; an absent column (and the empty column, whose quantiles
are undefined) leaves the table unchanged. -/
theorem handle_outliers_spec {t : Table} {c : String} (hwf : t.WF)
    (hnum : ∀ v ∈ colValues t c, IsNumVal v) :
    (c ∉ t.header → handle_outliers t c = t)
    ∧ (outlierBounds t c = none → handle_outliers t c = t)
    ∧ ∀ lb ub, outlierBounds t c = some (lb, ub) →
        lb ≤ ub
        ∧ (c ∈ t.header → colValues (handle_outliers t c) c
            = (colValues t c).map (clipVal lb ub))
        ∧ (∀ q : ℚ, q < lb → clipVal lb ub (.num q) = .num lb)
        ∧ (∀ q : ℚ, ub < q → clipVal lb ub (.num q) = .num ub)
        ∧ (∀ q : ℚ, lb ≤ q → q ≤ ub → clipVal lb ub (.num q) = .num q)
        ∧ (∀ v ∈ colValues (handle_outliers t c) c,
            ∃ q : ℚ, v = .num q ∧ lb ≤ q ∧ q ≤ ub) := by
  refine ⟨?_, ?_, ?_⟩
  · intro hc
    unfold handle_outliers
    rw [if_neg hc]
  · intro hb
    unfold handle_outliers
    by_cases hc : c ∈ t.header
    · rw [if_pos hc, hb]
    · rw [if_neg hc]
  · intro lb ub hb
    have hlbub : lb ≤ ub := outlierBounds_le hb
    have hmap : c ∈ t.header → colValues (handle_outliers t c) c
        = (colValues t c).map (clipVal lb ub) := by
      intro hc
      unfold handle_outliers
      rw [if_pos hc, hb]
      exact colValues_mapCol_self _ hwf
    refine ⟨hlbub, hmap, ?_, ?_, ?_, ?_⟩
    · intro q hq
      show Value.num (min (max q lb) ub) = Value.num lb
      rw [max_eq_right (le_of_lt hq), min_eq_left hlbub]
    · intro q hq
      show Value.num (min (max q lb) ub) = Value.num ub
      rw [max_eq_left (le_of_lt (lt_of_le_of_lt hlbub hq)),
        min_eq_right (le_of_lt hq)]
    · intro q h1 h2
      show Value.num (min (max q lb) ub) = Value.num q
      rw [max_eq_left h1, min_eq_left h2]
    · intro v hv
      by_cases hc : c ∈ t.header
      · rw [hmap hc] at hv
        obtain ⟨x, hx, rfl⟩ := List.mem_map.mp hv
        obtain ⟨q0, rfl⟩ := hnum x hx
        refine ⟨min (max q0 lb) ub, rfl, ?_, min_le_right _ _⟩
        exact le_min (le_trans (le_max_right q0 lb) (le_refl _)) hlbub
      · unfold handle_outliers at hv
        rw [if_neg hc] at hv
        rw [colValues_of_not_mem hc] at hv
        simp at hv

/-- C3 witness: the theorem applied to a column holding 1, 2, 3, 100, whose
pre-capping quartiles give the fences [-73/2, 131/2]. -/
theorem handle_outliers_spec_witness :
    (Table.WF ⟨["x"], [[.num 1], [.num 2], [.num 3], [.num 100]]⟩
      ∧ (∀ v ∈ colValues ⟨["x"], [[.num 1], [.num 2], [.num 3], [.num 100]]⟩
          "x", IsNumVal v))
    ∧ (-73/2 : ℚ) ≤ 131/2
    ∧ colValues (handle_outliers
        ⟨["x"], [[.num 1], [.num 2], [.num 3], [.num 100]]⟩ "x") "x"
      = (colValues ⟨["x"], [[.num 1], [.num 2], [.num 3], [.num 100]]⟩
          "x").map (clipVal (-73/2) (131/2)) := by
  have h := (@handle_outliers_spec
    ⟨["x"], [[.num 1], [.num 2], [.num 3], [.num 100]]⟩ "x"
    (by decide) (by decide)).2.2 (-73/2) (131/2) (by decide)
  exact ⟨⟨by decide, by decide⟩, h.1, h.2.1 (by decide)⟩

/-! Enricher (C5): a left merge against a side table with at most one row
per key pairs every base row with its unique match or with a padding of
missing cells, so the flattened result is a plain `map` over the base rows. -/

theorem mergeRows_unique {rows1 rows2 : List (List Value)} {i1 i2 k : ℕ}
    (huniq : ∀ v : Value,
      (rows2.filter (fun r2 => r2.getD i2 .na = v)).length ≤ 1) :
    (rows1.map (fun r =>
      match rows2.filter (fun r2 => r2.getD i2 .na = r.getD i1 .na) with
      | [] => [r ++ naRow k]
      | ms => ms.map (fun m => r ++ m))).flatten
    = rows1.map (fun r => r ++
        (match rows2.filter (fun r2 => r2.getD i2 .na = r.getD i1 .na) with
         | [] => naRow k
         | m :: _ => m)) := by
  induction rows1 with
  | nil => rfl
  | cons r rs ih =>
    simp only [List.map_cons, List.flatten_cons]
    rw [ih]
    cases hf : rows2.filter (fun r2 => r2.getD i2 .na = r.getD i1 .na) with
    | nil => rfl
    | cons m rest =>
      have hlen := huniq (r.getD i1 .na)
      rw [hf] at hlen
      simp only [List.length_cons] at hlen
      obtain rfl : rest = [] := List.length_eq_zero.mp (by omega)
      rfl

theorem maskFilter_trues {α : Type} (xs : List α) :
    maskFilter (List.replicate xs.length true) xs = xs := by
  induction xs with
  | nil => rfl
  | cons x xs ih => simp [maskFilter, List.replicate, ih]

theorem maskFilter_append {α : Type} {bs : List Bool} {xs : List α}
    (h : bs.length = xs.length) (cs : List Bool) (ys : List α) :
    maskFilter (bs ++ cs) (xs ++ ys) = maskFilter bs xs ++ maskFilter cs ys := by
  induction bs generalizing xs with
  | nil =>
    obtain rfl : xs = [] := List.length_eq_zero.mp h.symm
    rfl
  | cons b bs ih =>
    cases xs with
    | nil => simp at h
    | cons x xs =>
      simp only [List.length_cons, Nat.succ.injEq] at h
      cases b with
      | true => simp [maskFilter, ih h]
      | false => simp [maskFilter, ih h]

theorem maskFilter_merged_row (r w n : List Value) (hr : r.length = 3)
    (hw : w.length = 4) (hn : n.length = 3) :
    maskFilter [true, true, true, false, true, true, true, false, true, true]
      ((r ++ w) ++ n)
    = (r ++ w.drop 1) ++ n.drop 1 := by
  obtain ⟨a, b, c, rfl⟩ := List.length_eq_three.mp hr
  obtain ⟨w0, wr, rfl⟩ : ∃ w0 wr, w = w0 :: wr := by
    cases w with
    | nil => simp at hw
    | cons w0 wr => exact ⟨w0, wr, rfl⟩
  obtain ⟨w1, w2, w3, rfl⟩ : ∃ w1 w2 w3, wr = [w1, w2, w3] := by
    simp only [List.length_cons, Nat.succ.injEq] at hw
    exact List.length_eq_three.mp hw
  obtain ⟨n0, n1, n2, rfl⟩ := List.length_eq_three.mp hn
  rfl

/-- C5: with the pipeline's schemas, when each enrichment table has at most
one row per `country` key, the two left merges followed by the drop of the
duplicated key columns keep every logistics row exactly once and in order:
each base row is extended by the matched weather fields (or three missing
cells when its key has no weather match) and the matched news fields (or
two missing cells), the row count is exactly preserved, and the final
header keeps a single instance of the join key `origin_country` while the
suffixed helper key columns `country_x`/`country_y` are gone. -/
theorem merged_spec {L W N : Table}
    (hLh : L.header
      = ["origin_country", "destination_country", "transit_time_days"])
    (hWh : W.header
      = ["country", "weather_condition", "temperature_c", "weather_risk"])
    (hNh : N.header = ["country", "news_sentiment", "news_risk"])
    (hLwf : L.WF) (hWwf : W.WF) (hNwf : N.WF)
    (hWuniq : ∀ v : Value,
      (W.rows.filter (fun r => r.getD 0 .na = v)).length ≤ 1)
    (hNuniq : ∀ v : Value,
      (N.rows.filter (fun r => r.getD 0 .na = v)).length ≤ 1) :
    (merged L W N).header
      = ["origin_country", "destination_country", "transit_time_days",
         "weather_condition", "temperature_c", "weather_risk",
         "news_sentiment", "news_risk"]
    ∧ (merged L W N).header.count "origin_country" = 1
    ∧ (merged L W N).rows = L.rows.map (fun r =>
        (r ++ (match W.rows.filter
            (fun w => w.getD 0 .na = r.getD 0 .na) with
          | [] => [Value.na, Value.na, Value.na]
          | w :: _ => w.drop 1))
        ++ (match N.rows.filter
            (fun nr => nr.getD 0 .na = r.getD 0 .na) with
          | [] => [Value.na, Value.na]
          | nr :: _ => nr.drop 1))
    ∧ (merged L W N).rows.length = L.rows.length := by
  obtain ⟨lh, Lr⟩ := L
  obtain ⟨wh, Wr⟩ := W
  obtain ⟨nh, Nr⟩ := N
  obtain rfl : lh
    = ["origin_country", "destination_country", "transit_time_days"] := hLh
  obtain rfl : wh
    = ["country", "weather_condition", "temperature_c", "weather_risk"] := hWh
  obtain rfl : nh = ["country", "news_sentiment", "news_risk"] := hNh
  have h1 : (mergeLeft
      ⟨["origin_country", "destination_country", "transit_time_days"], Lr⟩
      ⟨["country", "weather_condition", "temperature_c", "weather_risk"], Wr⟩
      "origin_country" "country").rows
      = Lr.map (fun r => r ++
          (match Wr.filter (fun r2 => r2.getD 0 .na = r.getD 0 .na) with
           | [] => naRow 4
           | m :: _ => m)) := @mergeRows_unique Lr Wr 0 0 4 hWuniq
  have h2 : (mergeLeft (mergeLeft
      ⟨["origin_country", "destination_country", "transit_time_days"], Lr⟩
      ⟨["country", "weather_condition", "temperature_c", "weather_risk"], Wr⟩
      "origin_country" "country")
      ⟨["country", "news_sentiment", "news_risk"], Nr⟩
      "origin_country" "country").rows
      = (Lr.map (fun r => r ++
          (match Wr.filter (fun r2 => r2.getD 0 .na = r.getD 0 .na) with
           | [] => naRow 4
           | m :: _ => m))).map (fun r' => r' ++
          (match Nr.filter (fun r2 => r2.getD 0 .na = r'.getD 0 .na) with
           | [] => naRow 3
           | m :: _ => m)) := by
    show ((mergeLeft
      ⟨["origin_country", "destination_country", "transit_time_days"], Lr⟩
      ⟨["country", "weather_condition", "temperature_c", "weather_risk"], Wr⟩
      "origin_country" "country").rows.map (fun r =>
        match Nr.filter (fun r2 => r2.getD 0 .na = r.getD 0 .na) with
        | [] => [r ++ naRow 3]
        | ms => ms.map (fun m => r ++ m))).flatten = _
    rw [h1]
    exact @mergeRows_unique _ Nr 0 0 3 hNuniq
  have hrows : (merged
      ⟨["origin_country", "destination_country", "transit_time_days"], Lr⟩
      ⟨["country", "weather_condition", "temperature_c", "weather_risk"], Wr⟩
      ⟨["country", "news_sentiment", "news_risk"], Nr⟩).rows
      = Lr.map (fun r =>
        (r ++ (match Wr.filter
            (fun w => w.getD 0 .na = r.getD 0 .na) with
          | [] => [Value.na, Value.na, Value.na]
          | w :: _ => w.drop 1))
        ++ (match Nr.filter
            (fun nr => nr.getD 0 .na = r.getD 0 .na) with
          | [] => [Value.na, Value.na]
          | nr :: _ => nr.drop 1)) := by
    show ((mergeLeft (mergeLeft
      ⟨["origin_country", "destination_country", "transit_time_days"], Lr⟩
      ⟨["country", "weather_condition", "temperature_c", "weather_risk"], Wr⟩
      "origin_country" "country")
      ⟨["country", "news_sentiment", "news_risk"], Nr⟩
      "origin_country" "country").rows).map (maskFilter
        [true, true, true, false, true, true, true, false, true, true]) = _
    rw [h2, List.map_map, List.map_map]
    refine List.map_congr_left fun r hr => ?_
    have hr3 : r.length = 3 := hLwf r hr
    obtain ⟨a, b, c, rfl⟩ := List.length_eq_three.mp hr3
    simp only [Function.comp, List.cons_append, List.nil_append,
      List.getD_cons_zero]
    cases hfW : Wr.filter (fun r2 => r2.getD 0 Value.na = a) with
    | nil =>
      cases hfN : Nr.filter (fun r2 => r2.getD 0 Value.na = a) with
      | nil => rfl
      | cons m rest =>
        have hm : m.length = 3 := hNwf m
          (List.mem_of_mem_filter (hfN ▸ List.mem_cons_self m rest))
        obtain ⟨n0, n1, n2, rfl⟩ := List.length_eq_three.mp hm
        rfl
    | cons mw restw =>
      have hmw : mw.length = 4 := hWwf mw
        (List.mem_of_mem_filter (hfW ▸ List.mem_cons_self mw restw))
      obtain ⟨w0, wtail, rfl⟩ : ∃ w0 wtail, mw = w0 :: wtail := by
        cases mw with
        | nil => simp at hmw
        | cons x xs => exact ⟨x, xs, rfl⟩
      obtain ⟨w1, w2, w3, rfl⟩ : ∃ x y z, wtail = [x, y, z] := by
        simp only [List.length_cons] at hmw
        exact List.length_eq_three.mp (by omega)
      cases hfN : Nr.filter (fun r2 => r2.getD 0 Value.na = a) with
      | nil => rfl
      | cons m rest =>
        have hm : m.length = 3 := hNwf m
          (List.mem_of_mem_filter (hfN ▸ List.mem_cons_self m rest))
        obtain ⟨n0, n1, n2, rfl⟩ := List.length_eq_three.mp hm
        rfl
  refine ⟨rfl, ?_, hrows, ?_⟩
  · show List.count "origin_country"
      ["origin_country", "destination_country", "transit_time_days",
       "weather_condition", "temperature_c", "weather_risk",
       "news_sentiment", "news_risk"] = 1
    decide
  · rw [hrows]
    exact List.length_map _ _

/-- C5 witness: the theorem applied to a two-row logistics table with
singleton weather and news tables; the unmatched row is padded with
missing cells and both rows survive exactly once. -/
theorem merged_spec_witness :
    (merged ⟨["origin_country", "destination_country", "transit_time_days"],
        [[.str "France", .str "Spain", .num 3], [.str "Peru", .str "Chile", .num 9]]⟩
      ⟨["country", "weather_condition", "temperature_c", "weather_risk"],
        [[.str "France", .str "Sunny", .num 20, .num (2/10)]]⟩
      ⟨["country", "news_sentiment", "news_risk"],
        [[.str "France", .num 0, .num (1/2)]]⟩).rows.length = 2 := by
  have h := @merged_spec
    ⟨["origin_country", "destination_country", "transit_time_days"],
      [[.str "France", .str "Spain", .num 3], [.str "Peru", .str "Chile", .num 9]]⟩
    ⟨["country", "weather_condition", "temperature_c", "weather_risk"],
      [[.str "France", .str "Sunny", .num 20, .num (2/10)]]⟩
    ⟨["country", "news_sentiment", "news_risk"],
      [[.str "France", .num 0, .num (1/2)]]⟩
    rfl rfl rfl (by decide) (by decide) (by decide)
    (fun v => le_trans (List.length_filter_le _ _) (by decide))
    (fun v => le_trans (List.length_filter_le _ _) (by decide))
  rw [h.2.2.2]
  rfl
